import Mathlib

/-!
Verification development for the metadata normalization and filter-matching
engine of an astrophotography data-management code base (`common.py`).

The Python functions are shallowly embedded as executable Lean definitions:
Python `dict`s become association lists with Python's insertion-order update
semantics, Python strings become `String`, values that may be Python `None`
become `Option String`, fallible code returns `Except`, and `float`
coercions/formatting are modelled exactly over `Rat` (decimal strings parse
exactly; `inf`/`nan`/underscore literals are out of the model and parse to
`none`, which yields the same accept/reject behaviour in every use below).
Case conversion is modelled on ASCII letters, as used by all data of record.
-/

/-! ### Python-style primitive string operations (structural, kernel-reducible) -/

/-- ASCII lower-casing of a single character (model of Python `str.lower`). -/
def charLower (c : Char) : Char :=
  if 65 ≤ c.toNat ∧ c.toNat ≤ 90 then Char.ofNat (c.toNat + 32) else c

/-- ASCII upper-casing of a single character (model of Python `str.upper`). -/
def charUpper (c : Char) : Char :=
  if 97 ≤ c.toNat ∧ c.toNat ≤ 122 then Char.ofNat (c.toNat - 32) else c

/-- Python `s.lower()` (ASCII model). -/
def pyLower (s : String) : String := ⟨s.data.map charLower⟩

/-- Python `s.upper()` (ASCII model). -/
def pyUpper (s : String) : String := ⟨s.data.map charUpper⟩

theorem toNat_ofNat_valid {n : Nat} (h : n.isValidChar) : (Char.ofNat n).toNat = n := by
  rw [Char.ofNat, dif_pos h]
  rfl

theorem charLower_idem (c : Char) : charLower (charLower c) = charLower c := by
  unfold charLower
  by_cases h : 65 ≤ c.toNat ∧ c.toNat ≤ 90
  · rw [if_pos h]
    have hv : (c.toNat + 32).isValidChar := Or.inl (by omega)
    rw [if_neg]
    rw [toNat_ofNat_valid hv]
    omega
  · rw [if_neg h, if_neg h]

theorem pyLower_idem (s : String) : pyLower (pyLower s) = pyLower s := by
  unfold pyLower
  apply congrArg String.mk
  rw [List.map_map]
  exact List.map_congr_left (fun c _ => charLower_idem c)

/-- Does `pat` occur as a contiguous substring of `l`?  (Python `in` on `str`.) -/
def containsSub (pat : List Char) : List Char → Bool
  | [] => pat.isEmpty
  | c :: rest => pat.isPrefixOf (c :: rest) || containsSub pat rest

/-- Python `pat in s` for strings. -/
def pyIn (pat s : String) : Bool := containsSub pat.data s.data

/-- Non-overlapping left-to-right replacement of every occurrence, with fuel
(the fuel is always instantiated with the string length, which suffices). -/
def replAux (pat rep : List Char) : Nat → List Char → List Char
  | _, [] => []
  | 0, l => l
  | fuel+1, c :: rest =>
    if pat.isPrefixOf (c :: rest) ∧ pat ≠ [] then
      rep ++ replAux pat rep fuel (List.drop (pat.length - 1) rest)
    else
      c :: replAux pat rep fuel rest

/-- Python `s.replace(pat, rep)`: replaces all occurrences. -/
def pyReplace (s pat rep : String) : String :=
  ⟨replAux pat.data rep.data s.data.length s.data⟩

theorem replAux_no_occurrence (pat rep : List Char) :
    ∀ (l : List Char) (fuel : Nat), containsSub pat l = false →
      replAux pat rep fuel l = l := by
  intro l
  induction l with
  | nil => intro fuel _; cases fuel <;> rfl
  | cons c rest ih =>
    intro fuel h
    simp only [containsSub, Bool.or_eq_false_iff] at h
    cases fuel with
    | zero => rfl
    | succ fuel =>
      rw [replAux, if_neg, ih fuel h.2]
      intro hc
      rw [hc.1] at h
      exact absurd h.1 (by simp)

theorem pyReplace_no_occurrence (s pat rep : String) (h : pyIn pat s = false) :
    pyReplace s pat rep = s := by
  unfold pyReplace
  cases s with
  | mk data =>
    exact congrArg String.mk (replAux_no_occurrence pat.data rep.data data data.length h)

/-- Splitting on a (non-empty) separator, fuel-driven; Python `str.split(sep)`. -/
def splitAux (sep : List Char) : Nat → List Char → List Char → List (List Char)
  | 0, acc, l => [acc.reverse ++ l]
  | fuel+1, acc, [] => [acc.reverse]
  | fuel+1, acc, c :: rest =>
    if sep.isPrefixOf (c :: rest) ∧ sep ≠ [] then
      acc.reverse :: splitAux sep fuel [] (List.drop (sep.length - 1) rest)
    else
      splitAux sep fuel (c :: acc) rest

/-- Python `s.split(sep)` for a non-empty separator. -/
def pySplit (s sep : String) : List String :=
  (splitAux sep.data (s.data.length + 1) [] s.data).map String.mk

/-- Join a list of strings with a separator (Python `sep.join(parts)`). -/
def pyJoin (sep : String) : List String → String
  | [] => ""
  | [x] => x
  | x :: y :: rest => x ++ sep ++ pyJoin sep (y :: rest)

/-- The split of `cs` at the LAST occurrence of `sep`, if any: returns the
text before and after that occurrence.  This is what a greedy leading `(.*)`
regex group selects. -/
def lastSplit (sep : List Char) : List Char → Option (List Char × List Char)
  | [] => none
  | c :: rest =>
    match lastSplit sep rest with
    | some (p, s) => some (c :: p, s)
    | none =>
      if sep.isPrefixOf (c :: rest) then some ([], List.drop sep.length (c :: rest))
      else none

theorem lastSplit_append (sep : List Char) :
    ∀ (cs p s : List Char), lastSplit sep cs = some (p, s) → p ++ sep ++ s = cs := by
  intro cs
  induction cs with
  | nil => intro p s h; simp [lastSplit] at h
  | cons c rest ih =>
    intro p s h
    rw [lastSplit] at h
    cases hrec : lastSplit sep rest with
    | some ps =>
      rw [hrec] at h
      simp only [Option.some.injEq, Prod.mk.injEq] at h
      obtain ⟨h1, h2⟩ := h
      have := ih ps.1 ps.2 (by rw [hrec])
      subst h2
      rw [← h1]
      simpa using this
    | none =>
      rw [hrec] at h
      by_cases hp : sep.isPrefixOf (c :: rest)
      · rw [if_pos hp] at h
        simp only [Option.some.injEq, Prod.mk.injEq] at h
        obtain ⟨h1, h2⟩ := h
        subst h1
        obtain ⟨t, ht⟩ := List.isPrefixOf_iff_prefix.mp hp
        subst h2
        rw [← ht]
        simp [List.drop_left]
      · rw [if_neg hp] at h
        exact absurd h (by simp)

theorem lastSplit_none_not_contains (sep : List Char) (hne : sep ≠ []) :
    ∀ cs : List Char, lastSplit sep cs = none → containsSub sep cs = false := by
  intro cs
  induction cs with
  | nil =>
    intro _
    simp [containsSub, List.isEmpty_iff, hne]
  | cons c rest ih =>
    intro h
    rw [lastSplit] at h
    cases hrec : lastSplit sep rest with
    | some ps => rw [hrec] at h; simp at h
    | none =>
      rw [hrec] at h
      by_cases hp : sep.isPrefixOf (c :: rest)
      · rw [if_pos hp] at h; simp at h
      · simp [containsSub, hp, ih hrec]

theorem containsSub_tail (sep : List Char) (c : Char) (rest : List Char)
    (h : containsSub sep (c :: rest) = false) : containsSub sep rest = false := by
  simp only [containsSub, Bool.or_eq_false_iff] at h
  exact h.2

theorem containsSub_drop (sep : List Char) :
    ∀ (cs : List Char) (n : Nat), containsSub sep cs = false →
      containsSub sep (List.drop n cs) = false := by
  intro cs
  induction cs with
  | nil => intro n h; simpa using h
  | cons c rest ih =>
    intro n h
    cases n with
    | zero => exact h
    | succ n => exact ih n (containsSub_tail sep c rest h)

theorem lastSplit_suffix_not_contains (sep : List Char) (hne : sep ≠ []) :
    ∀ (cs p s : List Char), lastSplit sep cs = some (p, s) →
      containsSub sep s = false := by
  intro cs
  induction cs with
  | nil => intro p s h; simp [lastSplit] at h
  | cons c rest ih =>
    intro p s h
    rw [lastSplit] at h
    cases hrec : lastSplit sep rest with
    | some ps =>
      rw [hrec] at h
      simp only [Option.some.injEq, Prod.mk.injEq] at h
      exact h.2 ▸ ih ps.1 ps.2 (by rw [hrec])
    | none =>
      rw [hrec] at h
      by_cases hp : sep.isPrefixOf (c :: rest)
      · rw [if_pos hp] at h
        simp only [Option.some.injEq, Prod.mk.injEq] at h
        have hrest : containsSub sep rest = false := lastSplit_none_not_contains sep hne rest hrec
        have : List.drop sep.length (c :: rest) = List.drop (sep.length - 1) rest := by
          cases hsep : sep with
          | nil => exact absurd hsep hne
          | cons a as => simp
        rw [← h.2, this]
        exact containsSub_drop sep rest (sep.length - 1) hrest
      · rw [if_neg hp] at h
        exact absurd h (by simp)

theorem lastSplit_of_contains (sep : List Char) (hne : sep ≠ []) :
    ∀ cs : List Char, containsSub sep cs = true →
      ∃ p s, lastSplit sep cs = some (p, s) := by
  intro cs
  induction cs with
  | nil =>
    intro h
    simp only [containsSub, List.isEmpty_iff] at h
    exact absurd h hne
  | cons c rest ih =>
    intro h
    rw [lastSplit]
    cases hrec : lastSplit sep rest with
    | some ps => exact ⟨c :: ps.1, ps.2, rfl⟩
    | none =>
      simp only [containsSub, Bool.or_eq_true] at h
      rcases h with h | h
      · rw [if_pos h]
        exact ⟨[], List.drop sep.length (c :: rest), rfl⟩
      · obtain ⟨p, s, hps⟩ := ih h
        rw [hps] at hrec
        exact absurd hrec (by simp)

/-! ### Python `dict` model: association list with insertion-order update -/

/-- A Python string value that may be `None`. -/
abbrev Val := Option String

/-- A Python dict with keys `κ` and values `ν`, in insertion order. -/
abbrev PyDict (κ ν : Type) := List (κ × ν)

/-- `d[k]` as an option (`some v` when the key is present). -/
def findVal {κ ν : Type} [DecidableEq κ] : PyDict κ ν → κ → Option ν
  | [], _ => none
  | p :: rest, k => if p.1 = k then some p.2 else findVal rest k

/-- Python `k in d`. -/
def hasKey {κ ν : Type} [DecidableEq κ] : PyDict κ ν → κ → Bool
  | [], _ => false
  | p :: rest, k => p.1 = k || hasKey rest k

/-- Python `d[k] = v`: update in place when present (keeping the key's
position), else append. -/
def setKey {κ ν : Type} [DecidableEq κ] (m : PyDict κ ν) (k : κ) (v : ν) : PyDict κ ν :=
  if hasKey m k then m.map (fun p => if p.1 = k then (k, v) else p) else m ++ [(k, v)]

/-- The keys of a dict, in order. -/
def dictKeys {κ ν : Type} (m : PyDict κ ν) : List κ := m.map (fun p => p.1)

theorem hasKey_iff_mem_keys {κ ν : Type} [DecidableEq κ] (m : PyDict κ ν) (k : κ) :
    hasKey m k = true ↔ k ∈ dictKeys m := by
  induction m with
  | nil => simp [hasKey, dictKeys]
  | cons p rest ih => simp [hasKey, dictKeys, ih]; tauto

theorem findVal_isSome_iff_hasKey {κ ν : Type} [DecidableEq κ] (m : PyDict κ ν) (k : κ) :
    (findVal m k).isSome = hasKey m k := by
  induction m with
  | nil => rfl
  | cons p rest ih =>
    by_cases h : p.1 = k
    · simp [findVal, hasKey, h]
    · simpa [findVal, hasKey, h] using ih

theorem findVal_none_iff_hasKey_false {κ ν : Type} [DecidableEq κ] (m : PyDict κ ν) (k : κ) :
    findVal m k = none ↔ hasKey m k = false := by
  rw [← findVal_isSome_iff_hasKey]
  cases findVal m k <;> simp

theorem findVal_mapSet_same {κ ν : Type} [DecidableEq κ] (m : PyDict κ ν) (k : κ) (v : ν)
    (h : hasKey m k = true) :
    findVal (m.map (fun p => if p.1 = k then (k, v) else p)) k = some v := by
  induction m with
  | nil => simp [hasKey] at h
  | cons p rest ih =>
    by_cases hp : p.1 = k
    · simp [findVal, hp]
    · have : hasKey rest k = true := by simpa [hasKey, hp] using h
      simpa [findVal, hp] using ih this

theorem findVal_append_single_same {κ ν : Type} [DecidableEq κ] (m : PyDict κ ν) (k : κ) (v : ν)
    (h : hasKey m k = false) :
    findVal (m ++ [(k, v)]) k = some v := by
  induction m with
  | nil => simp [findVal]
  | cons p rest ih =>
    have hp : ¬ p.1 = k := by
      intro hh
      simp [hasKey, hh] at h
    have : hasKey rest k = false := by simpa [hasKey, hp] using h
    simpa [findVal, hp] using ih this

theorem findVal_setKey_same {κ ν : Type} [DecidableEq κ] (m : PyDict κ ν) (k : κ) (v : ν) :
    findVal (setKey m k v) k = some v := by
  unfold setKey
  by_cases h : hasKey m k
  · rw [if_pos h]; exact findVal_mapSet_same m k v h
  · rw [if_neg h]; exact findVal_append_single_same m k v (by simpa using h)

theorem findVal_setKey_other {κ ν : Type} [DecidableEq κ] (m : PyDict κ ν) (k k' : κ) (v : ν)
    (h : k' ≠ k) : findVal (setKey m k v) k' = findVal m k' := by
  unfold setKey
  by_cases hk : hasKey m k
  · rw [if_pos hk]
    clear hk
    induction m with
    | nil => rfl
    | cons p rest ih =>
      by_cases hp : p.1 = k
      · have h1 : ¬ (k = k') := fun hh => h hh.symm
        have h2 : ¬ (p.1 = k') := by rw [hp]; exact h1
        simpa [findVal, hp, h1, h2] using ih
      · by_cases hp' : p.1 = k'
        · simp [findVal, hp, hp', h]
        · simpa [findVal, hp, hp'] using ih
  · rw [if_neg hk]
    clear hk
    induction m with
    | nil =>
      have hne : ¬ (k = k') := fun hh => h hh.symm
      simp [findVal, hne]
    | cons p rest ih =>
      by_cases hp' : p.1 = k'
      · simp [findVal, hp']
      · simpa [findVal, hp'] using ih

theorem hasKey_setKey {κ ν : Type} [DecidableEq κ] (m : PyDict κ ν) (k k' : κ) (v : ν) :
    hasKey (setKey m k v) k' = (hasKey m k' || decide (k' = k)) := by
  rcases Decidable.em (k' = k) with h | h
  · subst h
    have h1 := findVal_isSome_iff_hasKey (setKey m k' v) k'
    rw [findVal_setKey_same m k' v] at h1
    simp at h1
    simp [← h1]
  · have h1 := findVal_isSome_iff_hasKey (setKey m k v) k'
    rw [findVal_setKey_other m k k' v h, findVal_isSome_iff_hasKey m k'] at h1
    simp [← h1, h]

/-- Keys present in a dict stay present (with the same value) under `setKey`
of a different key. -/
theorem findVal_setKey_preserve {κ ν : Type} [DecidableEq κ] (m : PyDict κ ν) (k k' : κ)
    (v : ν) (w : ν) (hfind : findVal m k' = some w) (h : k' ≠ k) :
    findVal (setKey m k v) k' = some w := by
  rw [findVal_setKey_other m k k' v h]; exact hfind

/-- Distinct keys, as a predicate on dicts. -/
def NodupKeys {κ ν : Type} (m : PyDict κ ν) : Prop := (dictKeys m).Nodup

theorem nodupKeys_setKey {κ ν : Type} [DecidableEq κ] (m : PyDict κ ν) (k : κ) (v : ν)
    (h : NodupKeys m) : NodupKeys (setKey m k v) := by
  unfold setKey
  by_cases hk : hasKey m k
  · rw [if_pos hk]
    have heq : dictKeys (m.map (fun p => if p.1 = k then (k, v) else p)) = dictKeys m := by
      unfold dictKeys
      rw [List.map_map]
      exact List.map_congr_left (fun p _ => by by_cases hp : p.1 = k <;> simp [hp])
    unfold NodupKeys
    rw [heq]
    exact h
  · rw [if_neg hk]
    unfold NodupKeys dictKeys at h ⊢
    rw [List.map_append, List.nodup_append]
    refine ⟨h, by simp, ?_⟩
    intro a ha hb
    simp only [List.map_cons, List.map_nil, List.mem_singleton] at hb
    subst hb
    exact hk ((hasKey_iff_mem_keys m a).mpr (by simpa [dictKeys] using ha))

/-! ### Python `float` coercion and fixed-point formatting, modelled over `Rat` -/

/-- Python whitespace for `str.strip` as applied by `float()`. -/
def isPySpace (c : Char) : Bool :=
  c.toNat = 32 || c.toNat = 9 || c.toNat = 10 || c.toNat = 13

/-- Strip leading and trailing whitespace. -/
def pyStrip (cs : List Char) : List Char :=
  ((cs.dropWhile isPySpace).reverse.dropWhile isPySpace).reverse

/-- Longest leading run of ASCII digits. -/
def takeDigits : List Char → List Char × List Char
  | [] => ([], [])
  | c :: rest =>
    if c.isDigit then
      let (d, r) := takeDigits rest
      (c :: d, r)
    else ([], c :: rest)

/-- Decimal digits to a natural number. -/
def digitsToNat (ds : List Char) : Nat := ds.foldl (fun n c => n * 10 + (c.toNat - 48)) 0

/-- Parse an optional sign, returning `1` or `-1` and the rest. -/
def takeSign : List Char → Int × List Char
  | [] => (1, [])
  | c :: rest =>
    if c = '+' then (1, rest) else if c = '-' then (-1, rest) else (1, c :: rest)

/-- Python `float(s)` on a decimal/scientific literal, as an exact pair
`(num, den)` with `den` a power of ten (kept unreduced so every arithmetic
step is plain integer arithmetic).  `inf`, `nan` and underscore separators are
outside the model and yield `none` (every use below treats `none` exactly as
Python treats those values). -/
def pyFloat (s : String) : Option (Int × Nat) :=
  let cs := pyStrip s.data
  let (sgn, cs1) := takeSign cs
  let (ip, cs2) := takeDigits cs1
  let (fp, cs3) :=
    match cs2 with
    | c :: rest => if c = '.' then takeDigits rest else ([], cs2)
    | [] => ([], cs2)
  if ip.isEmpty ∧ fp.isEmpty then none
  else
    let mantNum : Int := sgn * Int.ofNat (digitsToNat (ip ++ fp))
    let mantDen : Nat := 10 ^ fp.length
    match cs3 with
    | [] => some (mantNum, mantDen)
    | c :: rest =>
      if c = 'e' ∨ c = 'E' then
        let (esgn, rest1) := takeSign rest
        let (ed, rest2) := takeDigits rest1
        if ed.isEmpty ∨ ¬ rest2.isEmpty then none
        else
          let e : Nat := digitsToNat ed
          if esgn = 1 then some (mantNum * Int.ofNat (10 ^ e), mantDen)
          else some (mantNum, mantDen * 10 ^ e)
      else none

/-- Python `int(x)` on a float value `num / den`: truncation toward zero. -/
def pyTruncInt (num : Int) (den : Nat) : Int :=
  if 0 ≤ num then Int.ofNat (num.natAbs / den) else - Int.ofNat (num.natAbs / den)

/-- Left-pad a string with zeros to width `w`. -/
def padZeros (s : String) (w : Nat) : String :=
  ⟨List.replicate (w - s.data.length) (Char.ofNat 48) ++ s.data⟩

/-- Python `"{:.Nf}".format(num / den)`: round to `decs` fractional digits
with ties to even, then print in fixed-point. -/
def formatFixed (decs : Nat) (num : Int) (den : Nat) : String :=
  let a : Int := num * Int.ofNat (10 ^ decs)
  let f : Int := a.fdiv (Int.ofNat den)
  let rem : Int := a - f * Int.ofNat den
  let n : Int :=
    if 2 * rem < Int.ofNat den then f
    else if Int.ofNat den < 2 * rem then f + 1
    else if f % 2 = 0 then f else f + 1
  let sign := if n < 0 then "-" else ""
  let scale := 10 ^ decs
  let b := n.natAbs
  if decs = 0 then sign ++ Nat.repr b
  else sign ++ Nat.repr (b / scale) ++ "." ++ padZeros (Nat.repr (b % scale)) decs

/-! ### Calendar arithmetic for `DATE-OBS` normalization (proleptic Gregorian) -/

def isLeapYear (y : Int) : Bool := (y % 4 = 0 && y % 100 ≠ 0) || y % 400 = 0

def daysInMonth (y : Int) (m : Nat) : Nat :=
  if m = 1 ∨ m = 3 ∨ m = 5 ∨ m = 7 ∨ m = 8 ∨ m = 10 ∨ m = 12 then 31
  else if m = 4 ∨ m = 6 ∨ m = 9 ∨ m = 11 then 30
  else if isLeapYear y then 29 else 28

/-- Days since 1970-01-01 of a civil date (Hinnant's algorithm). -/
def daysFromCivil (y : Int) (m d : Nat) : Int :=
  let y2 : Int := y - (if m ≤ 2 then 1 else 0)
  let era : Int := y2.fdiv 400
  let yoe : Int := y2 - era * 400
  let mp : Int := (m : Int) + (if 2 < m then -3 else 9)
  let doy : Int := (153 * mp + 2).fdiv 5 + (d : Int) - 1
  let doe : Int := yoe * 365 + yoe.fdiv 4 - yoe.fdiv 100 + doy
  era * 146097 + doe - 719468

/-- Civil date from days since 1970-01-01 (inverse of `daysFromCivil`). -/
def civilFromDays (z0 : Int) : Int × Nat × Nat :=
  let z := z0 + 719468
  let era := z.fdiv 146097
  let doe := z - era * 146097
  let yoe := (doe - doe.fdiv 1460 + doe.fdiv 36524 - doe.fdiv 146096).fdiv 365
  let y := yoe + era * 400
  let doy := doe - (365 * yoe + yoe.fdiv 4 - yoe.fdiv 100)
  let mp := (5 * doy + 2).fdiv 153
  let d := doy - (153 * mp + 2).fdiv 5 + 1
  let m := mp + (if mp < 10 then 3 else -9)
  (y + (if m ≤ 2 then 1 else 0), m.toNat, d.toNat)

/-- Exactly `w` leading ASCII digits, as a number, plus the remainder. -/
def parseFixedNat (w : Nat) (cs : List Char) : Option (Nat × List Char) :=
  let (d, r) := (cs.take w, cs.drop w)
  if d.length = w ∧ d.all Char.isDigit then some (digitsToNat d, r) else none

/-- A literal character. -/
def parseLit (c : Char) : List Char → Option (List Char)
  | [] => none
  | x :: rest => if x = c then some rest else none

/-- `datetime.strptime(s, "%Y-%m-%dT%H:%M:%S")`, with range validation. -/
def parseDateTime (s : String) : Except String (Int × Nat × Nat × Nat × Nat × Nat) :=
  let err : Except String (Int × Nat × Nat × Nat × Nat × Nat) :=
    Except.error "time data does not match format"
  match parseFixedNat 4 s.data with
  | none => err
  | some (y, r1) =>
    match parseLit '-' r1 with
    | none => err
    | some r2 =>
      match parseFixedNat 2 r2 with
      | none => err
      | some (mo, r3) =>
        match parseLit '-' r3 with
        | none => err
        | some r4 =>
          match parseFixedNat 2 r4 with
          | none => err
          | some (d, r5) =>
            match parseLit 'T' r5 with
            | none => err
            | some r6 =>
              match parseFixedNat 2 r6 with
              | none => err
              | some (hh, r7) =>
                match parseLit ':' r7 with
                | none => err
                | some r8 =>
                  match parseFixedNat 2 r8 with
                  | none => err
                  | some (mi, r9) =>
                    match parseLit ':' r9 with
                    | none => err
                    | some r10 =>
                      match parseFixedNat 2 r10 with
                      | none => err
                      | some (ss, r11) =>
                        if r11.isEmpty ∧ 1 ≤ mo ∧ mo ≤ 12 ∧ 1 ≤ d ∧
                            d ≤ daysInMonth (y : Int) mo ∧ hh ≤ 23 ∧ mi ≤ 59 ∧ ss ≤ 59 then
                          Except.ok ((y : Int), mo, d, hh, mi, ss)
                        else err

/-- Python `s[:-4]`. -/
def pyDropLast4 (s : String) : String := ⟨s.data.take (s.data.length - 4)⟩

/-- `%Y-%m-%d` output formatting. -/
def fmtDate (y : Int) (m d : Nat) : String :=
  padZeros (Nat.repr y.toNat) 4 ++ "-" ++ padZeros (Nat.repr m) 2 ++ "-" ++ padZeros (Nat.repr d) 2

/-! ### Embedding of `common.py`: normalization tables and `normalize_headers` -/

/-- Python `str(value)` on a string-or-`None` value. -/
def pyStr : Val → String
  | none => "None"
  | some s => s

/-- Python truthiness of a string-or-`None` value. -/
def valTruthy : Val → Bool
  | none => false
  | some s => ¬ s.data.isEmpty

/-- A single-quote character, for quote stripping. -/
def squote : String := ⟨[Char.ofNat 39]⟩

/-- `normalize_filterName` from `common.py`. -/
def normalize_filterName (name : String) : String :=
  if name = "BaaderUVIRCut" then "UVIR"
  else if name = "OptolongLeXtreme" then "LeXtr"
  else if name = "S2" then "S"
  else if name = "Ha" then "H"
  else if name = "O3" then "O"
  else if name = "" then "RGB"
  else name

/-- `normalize_date` from `common.py`: drop the last 4 characters, parse with
`%Y-%m-%dT%H:%M:%S`, subtract 16 hours, format as `%Y-%m-%d`. -/
def normalize_date (date : String) : Except String String :=
  match parseDateTime (pyDropLast4 date) with
  | Except.error e => Except.error e
  | Except.ok (y, mo, d, hh, mi, ss) =>
    let total : Int :=
      daysFromCivil y mo d * 86400 + (hh : Int) * 3600 + (mi : Int) * 60 + (ss : Int) - 57600
    let c := civilFromDays (total.fdiv 86400)
    Except.ok (fmtDate c.1 c.2.1 c.2.2)

/-- `normalize_datetime` from `common.py`: drop the last 4 characters, parse,
format as `%Y-%m-%d_%H-%M-%S`. -/
def normalize_datetime (date : String) : Except String String :=
  match parseDateTime (pyDropLast4 date) with
  | Except.error e => Except.error e
  | Except.ok (y, mo, d, hh, mi, ss) =>
    Except.ok (fmtDate y mo d ++ "_" ++ padZeros (Nat.repr hh) 2 ++ "-" ++
      padZeros (Nat.repr mi) 2 ++ "-" ++ padZeros (Nat.repr ss) 2)

/-- `lambda x: "{:.2f}".format(float(x))`. -/
def float2Conv (x : String) : Except String String :=
  match pyFloat x with
  | some (n, d) => Except.ok (formatFixed 2 n d)
  | none => Except.error "could not convert string to float"

/-- `lambda x: "{0:.1f}".format(float(x))`. -/
def float1Conv (x : String) : Except String String :=
  match pyFloat x with
  | some (n, d) => Except.ok (formatFixed 1 n d)
  | none => Except.error "could not convert string to float"

/-- `FILTER_NORMALIZATION_DATA` from `common.py`: raw header key to the list
of (canonical key, conversion) pairs, in source order. -/
def FILTER_NORMALIZATION_DATA : PyDict String (List (String × (String → Except String String))) :=
  [("DATE-OBS", [("date", normalize_date), ("datetime", normalize_datetime)]),
   ("FILTER", [("filter", fun x => Except.ok (normalize_filterName x))]),
   ("EXPOSURE", [("exposureseconds", float2Conv)]),
   ("EXPTIME", [("exposureseconds", float2Conv)]),
   ("EXP", [("exposureseconds", float2Conv)]),
   ("CCD-TEMP", [("temp", float2Conv)]),
   ("SETTEMP", [("settemp", float2Conv)]),
   ("SET-TEMP", [("settemp", float2Conv)]),
   ("IMAGETYP", [("type", fun x => Except.ok (pyUpper x))]),
   ("TELESCOP", [("optic", fun x => Except.ok x)]),
   ("FOCRATIO", [("focal_ratio", fun x => Except.ok x)]),
   ("INSTRUME", [("camera", fun x => Except.ok x)]),
   ("OBJECT", [("targetname", fun x => Except.ok x)]),
   ("SITELAT", [("latitude", float1Conv)]),
   ("OBSGEO-B", [("latitude", float1Conv)]),
   ("SITELONG", [("longitude", float1Conv)]),
   ("OBSGEO-L", [("longitude", float1Conv)]),
   ("READOUTM", [("readoutmode", fun x => Except.ok x)]),
   ("astro", [("filter", fun _ => Except.ok "Astro")]),
   ("duo-band", [("filter", fun _ => Except.ok "Duo-Band")])]

/-- `CONSTANT_NORMALIZATION_DATA` from `common.py`. -/
def CONSTANT_NORMALIZATION_DATA : List (String × List (String × List (String × String))) :=
  [("camera", [("DWARFIII", [("focal_ratio", "4.3"), ("type", "LIGHT")])])]

/-- `normalize_target_name` from `common.py`: `re.match("(.* ) Panel (.*)")`
(greedy, hence the split happens at the last occurrence of `" Panel "`), then
single quotes are stripped from the target part. -/
def normalize_target_name (input : String) : String × String :=
  match lastSplit " Panel ".data input.data with
  | some (p, s) => (pyReplace ⟨p⟩ squote "", ⟨s⟩)
  | none => (pyReplace input squote "", "")

/-- Apply the conversion list of one raw key to its value, writing each
canonical key in turn (a conversion failure raises). -/
def applyConvs (s : String) :
    PyDict String Val → List (String × (String → Except String String)) →
      Except String (PyDict String Val)
  | out, [] => Except.ok out
  | out, (ck, f) :: rest =>
    match f s with
    | Except.ok r => applyConvs s (setKey out ck (some r)) rest
    | Except.error e => Except.error e

/-- One iteration of the key loop of `normalize_headers`. -/
def normalizeKeyStep (out : PyDict String Val) (k : String) (v : Val) :
    Except String (PyDict String Val) :=
  match v, findVal FILTER_NORMALIZATION_DATA k with
  | some s, some convs => applyConvs s out convs
  | _, _ => Except.ok (setKey out (pyLower k) v)

/-- The key loop of `normalize_headers`, over the input items in order. -/
def perKeySteps : PyDict String Val → List (String × Val) → Except String (PyDict String Val)
  | out, [] => Except.ok out
  | out, (k, v) :: rest =>
    match normalizeKeyStep out k v with
    | Except.ok o => perKeySteps o rest
    | Except.error e => Except.error e

/-- The `" Panel "` special case of `normalize_headers`: if `panel` is absent
and `targetname` is present and truthy, split it. -/
def splitPanelStep (o : PyDict String Val) : PyDict String Val :=
  if hasKey o "panel" then o
  else
    match findVal o "targetname" with
    | some (some t) =>
      if t.data.isEmpty then o
      else
        let x := normalize_target_name t
        setKey (setKey o "targetname" (some x.1)) "panel" (some x.2)
    | _ => o

/-- The `CONSTANT_NORMALIZATION_DATA` pass of `normalize_headers`: inject the
side attributes of a matching trigger, never overwriting a present key. -/
def injectConstants (o : PyDict String Val) : PyDict String Val :=
  CONSTANT_NORMALIZATION_DATA.foldl (fun o entry =>
    entry.2.foldl (fun o ventry =>
      if findVal o entry.1 = some (some ventry.1) then
        ventry.2.foldl (fun o c => if hasKey o c.1 then o else setKey o c.1 (some c.2)) o
      else o) o) o

/-- `normalize_headers` from `common.py`. -/
def normalize_headers (input : PyDict String Val) : Except String (PyDict String Val) :=
  match perKeySteps [] input with
  | Except.ok o => Except.ok (injectConstants (splitPanelStep o))
  | Except.error e => Except.error e

/-! ### Embedding of `common.py`: path handling and header extraction -/

/-- `os.sep` (POSIX model; newline-free ASCII paths are assumed throughout). -/
def pathSep : String := "/"

def DIRECTORY_ACCEPT : String := "accept"

/-- Python `s.startswith(pre)`. -/
def pyStartsWith (s pre : String) : Bool := pre.data.isPrefixOf s.data

/-- Python `s.endswith(suf)`. -/
def pyEndsWith (s suf : String) : Bool := suf.data.reverse.isPrefixOf s.data.reverse

/-- `posixpath.normpath`. -/
def normpath (path : String) : String :=
  if path = "" then "." else
  let s1 : Nat := if pyStartsWith path "/" then 1 else 0
  let s2 : Nat :=
    if s1 = 1 ∧ pyStartsWith path "//" ∧ ¬ pyStartsWith path "///" then 2 else s1
  let comps := pySplit path "/"
  let newComps := comps.foldl (fun (acc : List String) (comp : String) =>
    let lastDD : Bool := match acc.getLast? with | some x => x = ".." | none => false
    if comp = "" ∨ comp = "." then acc
    else if comp ≠ ".." ∨ (s2 = 0 ∧ acc = []) ∨ lastDD = true then acc ++ [comp]
    else if ¬ acc.isEmpty then acc.dropLast
    else acc) ([] : List String)
  let joined := pyJoin "/" newComps
  let out := String.mk (List.replicate s2 '/') ++ joined
  if out = "" then "." else out

/-- Last index (0-based) where a character satisfies `p`, as Python `rfind`. -/
def lastIndexWhere (p : Char → Bool) (cs : List Char) : Option Nat :=
  (cs.foldl (fun st c => (st.1 + 1, if p c then some st.1 else st.2))
    ((0 : Nat), (none : Option Nat))).2

/-- `os.path.splitext` (POSIX): split off the extension at the last dot of the
basename, unless every character before it in the basename is a dot. -/
def splitext (s : String) : String × String :=
  let cs := s.data
  match lastIndexWhere (fun c => c = '.') cs with
  | none => (s, "")
  | some di =>
    let si := lastIndexWhere (fun c => c = '/') cs
    let sepOk := match si with | none => true | some i => i < di
    let start := match si with | none => 0 | some i => i + 1
    let nonDotExists := ((cs.drop start).take (di - start)).any (fun c => ¬ (c = '.'))
    if sepOk && nonDotExists then (⟨cs.take di⟩, ⟨cs.drop di⟩) else (s, "")

/-- The rewrite that prefixes `OBJECT_` to the directory whose child is the
`accept` directory (loop body of `get_file_headers`). -/
def injectObjectParts : List String → List String
  | [] => []
  | [x] => [x]
  | x :: y :: rest =>
    (if y = DIRECTORY_ACCEPT then "OBJECT_" ++ x else x) :: injectObjectParts (y :: rest)

/-- A path separator character, as in the profile regex `[\\/]`. -/
def isSlash (c : Char) : Bool := c = '/' || c = Char.ofNat 92

/-- Split a list at the first character satisfying `p`. -/
def splitAtFirst (p : Char → Bool) : List Char → Option (List Char × Char × List Char)
  | [] => none
  | c :: rest =>
    if p c then some ([], c, rest)
    else
      match splitAtFirst p rest with
      | some (pre, x, post) => some (c :: pre, x, post)
      | none => none

/-- Matching of `[^@]*@f[^+]*[+][^\\/]*[\\/].*` against a suffix: the
backtracking of each bounded class is deterministic, so the groups are cut at
the first `@` (which must be followed by `f`), the first later `+`, and the
first later path separator. -/
def profileMatchFrom (rest : List Char) :
    Option (List Char × List Char × List Char × List Char) :=
  match splitAtFirst (fun c => c = '@') rest with
  | none => none
  | some (g2, _, afterAt) =>
    match afterAt with
    | [] => none
    | c :: rest2 =>
      if c = 'f' then
        match splitAtFirst (fun c => c = '+') rest2 with
        | none => none
        | some (g3, _, rest3) =>
          match splitAtFirst isSlash rest3 with
          | none => none
          | some (g4, sl, rest4) => some (g2, g3, g4, sl :: rest4)
      else none

/-- All splits of a character list into a prefix ending in a path separator
and the corresponding suffix, in position order. -/
def slashSplits : List Char → List (List Char × List Char)
  | [] => []
  | c :: rest =>
    let tail := (slashSplits rest).map (fun p => (c :: p.1, p.2))
    if isSlash c then ([c], rest) :: tail else tail

/-- `re.match("(.*[\\\\\\/])([^@]*)@f([^+]*)[+]([^\\\\\\/]*)([\\\\\\/].*)", s)`:
the greedy leading group tries the longest prefix ending in a separator first. -/
def profileMatch (s : String) : Option (String × String × String × String × String) :=
  (slashSplits s.data).reverse.findSome? (fun p =>
    match profileMatchFrom p.2 with
    | some (g2, g3, g4, g5) => some (⟨p.1⟩, ⟨g2⟩, ⟨g3⟩, ⟨g4⟩, ⟨g5⟩)
    | none => none)

/-- Python `str.isnumeric` (ASCII-digit model). -/
def pyIsNumeric (s : String) : Bool := ¬ s.data.isEmpty && s.data.all Char.isDigit

/-- The adjacent-pair token loop of `get_file_headers`: every consecutive
underscore-separated pair (k, v) with non-numeric, fresh k is recorded. -/
def addPairs : PyDict String Val → List String → PyDict String Val
  | out, a :: b :: rest =>
    addPairs (if ¬ pyIsNumeric a ∧ ¬ (hasKey out a = true) then setKey out a (some b) else out)
      (b :: rest)
  | out, _ => out

/-- The dash token loop of `get_file_headers`: a token containing `-` is split
at its first dash into key and joined remainder. -/
def addDashTokens (out : PyDict String Val) (xs : List String) : PyDict String Val :=
  xs.foldl (fun out x =>
    if pyIn "-" x then
      match pySplit x "-" with
      | [] => out
      | k :: restParts =>
        let v := pyJoin "-" restParts
        if ¬ pyIsNumeric k ∧ ¬ (hasKey out k = true) then setKey out k (some v) else out
    else out) out

/-- Tokenize all path chunks: for each chunk, the pair loop then the dash loop. -/
def tokenizeChunks (out0 : PyDict String Val) (chunks : List String) : PyDict String Val :=
  chunks.foldl (fun out chunk =>
    let m1 := pySplit chunk "_"
    addDashTokens (addPairs out m1) m1) out0

/-- Name rewriting stage of `get_file_headers`: the `SET-TEMP`, `accept`
directory, and profile-from-path rewrites, in order. -/
def rewriteFilename (filename : String) (profileFromPath objectFromPath : Bool) : String :=
  let fn1 := if pyIn "SET-TEMP" filename then pyReplace filename "SET-TEMP" "SETTEMP"
    else filename
  let fn2 :=
    if objectFromPath ∧ pyIn DIRECTORY_ACCEPT fn1 then
      pyJoin pathSep (injectObjectParts (pySplit fn1 pathSep))
    else fn1
  if profileFromPath then
    match profileMatch fn2 with
    | some (p0, p1, p2, p3, p4) =>
      p0 ++ "TELESCOP_" ++ p1 ++ "_FOCRATIO_" ++ p2 ++ "_INSTRUME_" ++ p3 ++ p4
    | none => fn2
  else fn2

/-- Raw token dictionary of `get_file_headers` before its special cases: the
`filename` entry (with the original name) plus all path tokens. -/
def rawTokens (filename : String) (profileFromPath objectFromPath : Bool) : PyDict String Val :=
  tokenizeChunks [("filename", some filename)]
    (pySplit (splitext (rewriteFilename filename profileFromPath objectFromPath)).1 pathSep)

/-- `.cr2` special case: default `TYPE` to `LIGHT` when the (rewritten)
filename ends in `.cr2` and no `TYPE` token was found. -/
def specialCr2 (fn3 : String) (o : PyDict String Val) : PyDict String Val :=
  if pyEndsWith fn3 ".cr2" ∧ ¬ (hasKey o "TYPE" = true) then setKey o "TYPE" (some "LIGHT")
  else o

/-- `SETTEMP` special case: re-expose a `SETTEMP` token as `SET-TEMP`. -/
def specialSettemp (o : PyDict String Val) : PyDict String Val :=
  match findVal o "SETTEMP" with
  | some v => setKey o "SET-TEMP" v
  | none => o

/-- `EXPOSURE` special case: when the value contains `s`, replace every `s`
with the empty string. -/
def specialExposure (o : PyDict String Val) : PyDict String Val :=
  match findVal o "EXPOSURE" with
  | some (some v) =>
    if pyIn "s" v then setKey o "EXPOSURE" (some (pyReplace v "s" "")) else o
  | _ => o

/-- The three token special cases of `get_file_headers` (`.cr2` type default,
`SET-TEMP` restoration, `EXPOSURE` `s`-stripping), in source order. -/
def applyTokenSpecialCases (fn3 : String) (out1 : PyDict String Val) : PyDict String Val :=
  specialExposure (specialSettemp (specialCr2 fn3 out1))

/-- `get_file_headers` from `common.py`. -/
def get_file_headers (filename : String) (profileFromPath objectFromPath normalize : Bool) :
    Except String (PyDict String Val) :=
  let fn3 := rewriteFilename filename profileFromPath objectFromPath
  let out := applyTokenSpecialCases fn3 (rawTokens filename profileFromPath objectFromPath)
  if normalize then normalize_headers out else Except.ok out

/-- Build a Python dict from a pair list, in order (later pairs update earlier
keys in place). -/
def dictOfPairs (l : List (String × Val)) : PyDict String Val :=
  l.foldl (fun o kv => setKey o kv.1 kv.2) []

/-- `get_fits_headers` from `common.py`.  The contents of the FITS container's
primary header block (already value-stringified, `None` for blank values) are
passed in as `containerHeaders`; the merge `dict(list(output.items()) +
list(file_output.items()))` gives the filename-derived items last. -/
def get_fits_headers (filename : String) (containerHeaders : List (String × Val))
    (profileFromPath normalize file_naming_override : Bool) :
    Except String (PyDict String Val) :=
  match (if file_naming_override then get_file_headers filename profileFromPath true normalize
      else Except.ok []) with
  | Except.error e => Except.error e
  | Except.ok file_output =>
    let output := dictOfPairs (containerHeaders ++ file_output)
    if normalize then normalize_headers output else Except.ok output

/-! ### Embedding of `common.py`: `normalize_filename` -/

/-- The errors `normalize_filename` can raise: the explicit missing-required-
header `Exception`, or an unchecked Python `KeyError` from a bare `headers[k]`
lookup. -/
inductive NFError where
  | missingHeader (h : String) (filename : String)
  | keyError (k : String)
deriving DecidableEq

/-- A bare Python `headers[k]` lookup: `KeyError` when absent. -/
def getItem (headers : PyDict String Val) (k : String) : Except NFError Val :=
  match findVal headers k with
  | some v => Except.ok v
  | none => Except.error (NFError.keyError k)

/-- The required-header list of `normalize_filename`, in check order. -/
def REQUIRED_HEADERS : List String :=
  ["type", "optic", "camera", "date", "exposureseconds", "datetime", "filter"]

/-- The optional trailing attributes appended to the timestamp segment. -/
def OPT_KEYS : List String := ["hfr", "stars", "rmsac", "temp"]

/-- `normalize_filename` from `common.py`. -/
def normalize_filename (output_directory input_filename : String)
    (headers : PyDict String Val) (statedir : Option String) : Except NFError String := do
  let file_extension := (splitext input_filename).2
  match REQUIRED_HEADERS.find? (fun rh => ¬ (hasKey headers rh = true)) with
  | some rh => Except.error (NFError.missingHeader rh input_filename)
  | none => do
    let ty ← getItem headers "type"
    let out1 : List String := [output_directory]
    let out2 ←
      if ty = some "BIAS" ∨ ty = some "DARK" ∨ ty = some "FLAT" then do
        let o ← getItem headers "optic"
        let c ← getItem headers "camera"
        pure (out1 ++ [pyStr o ++ "+" ++ pyStr c])
      else if ty = some "LIGHT" then do
        let o ← getItem headers "optic"
        let fr ← getItem headers "focal_ratio"
        let c ← getItem headers "camera"
        pure (out1 ++ [pyStr o ++ "@f" ++ pyStr fr ++ "+" ++ pyStr c])
      else pure out1
    let out3 ←
      if ty = some "LIGHT" then do
        let withState :=
          match statedir with
          | some sd => if 0 < sd.data.length then out2 ++ [sd] else out2
          | none => out2
        let tn ← getItem headers "targetname"
        pure (withState ++ [pyStr tn])
      else pure out2
    let dt ← getItem headers "date"
    let out4 := out3 ++ ["DATE_" ++ pyStr dt]
    let fl ← getItem headers "filter"
    let ex ← getItem headers "exposureseconds"
    let p1 := "FILTER_" ++ pyStr fl ++ "_EXP_" ++ pyStr ex
    let p2 :=
      match findVal headers "settemp" with
      | some v => p1 ++ "_SETTEMP_" ++ pyStr v
      | none => p1
    let p3 :=
      if ty = some "LIGHT" then
        match findVal headers "panel" with
        | some (some pv) => if 0 < pv.data.length then p2 ++ "_PANEL_" ++ pv else p2
        | _ => p2
      else p2
    let out5 := out4 ++ [p3]
    let dtt ← getItem headers "datetime"
    let q2 := OPT_KEYS.foldl (fun q opt =>
      match findVal headers opt with
      | some (some v) => if 0 < v.data.length then q ++ "_" ++ pyUpper opt ++ "_" ++ v else q
      | _ => q) (pyStr dtt)
    let out6 := out5 ++ [q2 ++ file_extension]
    pure (normpath (pyJoin pathSep out6))

/-! ### Embedding of `common.py`: `filter_metadata` -/

/-- A value of the filter-predicate dict: a callable, an `int`, a `float`, a
string, or Python `None` (which `filter_metadata` rejects). -/
inductive FilterVal where
  | callable (f : Val → Bool)
  | int (n : Int)
  | float (q : Rat)
  | str (s : String)
  | pynone

/-- One branch check of `filter_metadata` on a datum value present for the
filter key (the callable never raises in the model, so the
function-call-failed path is not represented). -/
def checkFilter : FilterVal → Val → Bool
  | FilterVal.callable f, v => f v
  | FilterVal.int n, v =>
    match v with
    | none => false
    | some s =>
      match pyFloat s with
      | none => false
      | some (a, b) => pyTruncInt a b = n
  | FilterVal.float x, v =>
    match v with
    | none => false
    | some s =>
      match pyFloat s with
      | none => false
      | some (a, b) => mkRat a b = x
  | FilterVal.str t, v => pyStr v = t
  | FilterVal.pynone, _ => false

/-- The per-datum filter loop: every filter key present in the datum must pass
its branch check (the loop breaks at the first failure). -/
def datumMatches (fs : List (String × FilterVal)) (datum : PyDict String Val) : Bool :=
  fs.all (fun kv =>
    match findVal datum kv.1 with
    | none => true
    | some v => checkFilter kv.2 v)

/-- `filter_metadata` from `common.py`.  `filters` is `none` for Python
`None`. -/
def filter_metadata (data : List (String × PyDict String Val))
    (filters : Option (List (String × FilterVal))) :
    Except String (List (String × PyDict String Val)) :=
  match filters with
  | none => Except.error "Invalid filter data"
  | some fs =>
    if fs.length = 0 then Except.error "Invalid filter data"
    else
      match fs.find? (fun kv => match kv.2 with | FilterVal.pynone => true | _ => false) with
      | some kv => Except.error ("filter key has no value: " ++ kv.1)
      | none => Except.ok (data.filter (fun p => datumMatches fs p.2))

/-! ### Embedding of `common.py`: `get_metadata` / `enrich_metadata` selection -/

/-- Lexicographic order on character lists by code point (Python `str` order). -/
def charListLt : List Char → List Char → Bool
  | [], [] => false
  | [], _ :: _ => true
  | _ :: _, [] => false
  | a :: as, b :: bs =>
    if a.toNat < b.toNat then true else if b.toNat < a.toNat then false else charListLt as bs

/-- Order on values for `to_enrich.sort()` (`None` entries cannot actually
occur there; they are ordered first in the model). -/
def valLt : Val → Val → Bool
  | none, none => false
  | none, some _ => true
  | some _, none => false
  | some a, some b => charListLt a.data b.data

def insertSorted (x : Val) : List Val → List Val
  | [] => [x]
  | y :: ys => if valLt x y then x :: y :: ys else y :: insertSorted x ys

/-- `list.sort()`, as an insertion sort. -/
def sortVals : List Val → List Val
  | [] => []
  | x :: xs => insertSorted x (sortVals xs)

theorem mem_insertSorted (x a : Val) :
    ∀ l : List Val, a ∈ insertSorted x l ↔ (a = x ∨ a ∈ l) := by
  intro l
  induction l with
  | nil => simp [insertSorted]
  | cons y ys ih =>
    by_cases h : valLt x y
    · simp [insertSorted, h]
    · simp [insertSorted, h, ih]
      tauto

theorem mem_sortVals (a : Val) : ∀ l : List Val, a ∈ sortVals l ↔ a ∈ l := by
  intro l
  induction l with
  | nil => simp [sortVals]
  | cons x xs ih => simp [sortVals, mem_insertSorted, ih]

/-- `get_metadata` always forces `targetname` into the required list. -/
def appendTargetname (req : List String) : List String :=
  if "targetname" ∈ req then req else req ++ ["targetname"]

/-- The padding loop of `get_metadata`: required properties missing from a
datum are set to `None`. -/
def padDatum (req : List String) (d : PyDict String Val) : PyDict String Val :=
  req.foldl (fun d p => if hasKey d p then d else setKey d p none) d

/-- The data-loading loop of `get_metadata`: `data[d['filename']] = d` for the
path-derived headers `d` of each discovered file. -/
def buildDataAux (pfp : Bool) :
    PyDict Val (PyDict String Val) → List String → Except String (PyDict Val (PyDict String Val))
  | data, [] => Except.ok data
  | data, fn :: rest =>
    match get_file_headers fn pfp true true with
    | Except.error e => Except.error e
    | Except.ok d =>
      match findVal d "filename" with
      | some k => buildDataAux pfp (setKey data k d) rest
      | none => Except.error "KeyError: filename"

/-- The missing-required-property test of `enrich_metadata`
(`rp not in datum or datum[rp] is None or len(datum[rp]) == 0`). -/
def propMissing (d : PyDict String Val) (rp : String) : Bool :=
  match findVal d rp with
  | none => true
  | some none => true
  | some (some s) => s.data.isEmpty

/-- The `to_enrich` entries contributed by one datum: one `datum['filename']`
per missing required property. -/
def enrichContrib (req : List String) (d : PyDict String Val) : Except String (List Val) :=
  let misses := req.filter (fun rp => propMissing d rp)
  if misses.isEmpty then Except.ok []
  else
    match findVal d "filename" with
    | some k => Except.ok (misses.map (fun _ => k))
    | none => Except.error "KeyError: filename"

/-- The `to_enrich` collection loop of `enrich_metadata`, over the data in
insertion order. -/
def enrichSelection (req : List String) : PyDict Val (PyDict String Val) → Except String (List Val)
  | [] => Except.ok []
  | kv :: rest =>
    match enrichContrib req kv.2 with
    | Except.error e => Except.error e
    | Except.ok c =>
      match enrichSelection req rest with
      | Except.error e => Except.error e
      | Except.ok cs => Except.ok (c ++ cs)

/-- `get_metadata` from `common.py`, modelled up to the point where
`enrich_metadata` has computed its sorted `to_enrich` list: returns the forced
required-property list, the padded path-derived data, and the sorted list of
files whose containers the enrichment loop then opens. -/
def get_metadata_selection (filenames : List String) (pfp : Bool)
    (required_properties : List String) :
    Except String (List String × PyDict Val (PyDict String Val) × List Val) :=
  let req := appendTargetname required_properties
  match buildDataAux pfp [] filenames with
  | Except.error e => Except.error e
  | Except.ok data0 =>
    let data := data0.map (fun kv => (kv.1, padDatum req kv.2))
    match enrichSelection req data with
    | Except.error e => Except.error e
    | Except.ok te => Except.ok (req, data, sortVals te)

instance {e a : Type} [DecidableEq e] [DecidableEq a] : DecidableEq (Except e a) := fun x y =>
  match x, y with
  | Except.ok v, Except.ok w =>
    match decEq v w with
    | isTrue h => isTrue (h ▸ rfl)
    | isFalse h => isFalse (fun hh => h (Except.ok.inj hh))
  | Except.ok _, Except.error _ => isFalse (fun hh => Except.noConfusion hh)
  | Except.error _, Except.ok _ => isFalse (fun hh => Except.noConfusion hh)
  | Except.error v, Except.error w =>
    match decEq v w with
    | isTrue h => isTrue (h ▸ rfl)
    | isFalse h => isFalse (fun hh => h (Except.error.inj hh))

/-! ### Further dict lemmas: folds, rebuilds, and mapped values -/

theorem findVal_mem {κ ν : Type} [DecidableEq κ] :
    ∀ (m : PyDict κ ν) (k : κ) (v : ν), findVal m k = some v → (k, v) ∈ m := by
  intro m
  induction m with
  | nil => intro k v h; simp [findVal] at h
  | cons p rest ih =>
    intro k v h
    rw [findVal] at h
    by_cases hp : p.1 = k
    · rw [if_pos hp] at h
      have hpv : (k, v) = p := by
        obtain ⟨p1, p2⟩ := p
        simp only at hp
        simp only [Option.some.injEq] at h
        simp [hp, h]
      exact List.mem_cons.mpr (Or.inl hpv)
    · rw [if_neg hp] at h
      exact List.mem_cons_of_mem p (ih k v h)

/-- Folding `setKey` over a pair list, as done by dict construction. -/
def setAll {κ ν : Type} [DecidableEq κ] (acc : PyDict κ ν) (l : List (κ × ν)) : PyDict κ ν :=
  l.foldl (fun o kv => setKey o kv.1 kv.2) acc

theorem setAll_append {κ ν : Type} [DecidableEq κ] (acc : PyDict κ ν) (l1 l2 : List (κ × ν)) :
    setAll acc (l1 ++ l2) = setAll (setAll acc l1) l2 := by
  unfold setAll
  rw [List.foldl_append]

theorem findVal_setAll_not_mem {κ ν : Type} [DecidableEq κ] :
    ∀ (l : List (κ × ν)) (acc : PyDict κ ν) (k : κ), k ∉ dictKeys l →
      findVal (setAll acc l) k = findVal acc k := by
  intro l
  induction l with
  | nil => intro acc k _; rfl
  | cons p rest ih =>
    intro acc k h
    simp only [dictKeys, List.map_cons, List.mem_cons] at h
    push_neg at h
    rw [setAll, List.foldl_cons, ← setAll, ih _ k (by simpa [dictKeys] using h.2)]
    exact findVal_setKey_other acc p.1 k p.2 h.1

theorem hasKey_setAll_not_mem {κ ν : Type} [DecidableEq κ] :
    ∀ (l : List (κ × ν)) (acc : PyDict κ ν) (k : κ), k ∉ dictKeys l →
      hasKey (setAll acc l) k = hasKey acc k := by
  intro l acc k h
  have h1 := findVal_isSome_iff_hasKey (setAll acc l) k
  rw [findVal_setAll_not_mem l acc k h, findVal_isSome_iff_hasKey acc k] at h1
  exact h1.symm

theorem findVal_setAll_mem {κ ν : Type} [DecidableEq κ] :
    ∀ (l : List (κ × ν)) (acc : PyDict κ ν) (k : κ), NodupKeys l → k ∈ dictKeys l →
      findVal (setAll acc l) k = findVal l k := by
  intro l
  induction l with
  | nil => intro acc k _ h; simp [dictKeys] at h
  | cons p rest ih =>
    intro acc k hnd hmem
    have hnd' : NodupKeys rest := (List.nodup_cons.mp hnd).2
    have hp1 : p.1 ∉ dictKeys rest := (List.nodup_cons.mp hnd).1
    rw [setAll, List.foldl_cons, ← setAll]
    by_cases hk : k = p.1
    · subst hk
      rw [findVal_setAll_not_mem rest _ p.1 hp1, findVal_setKey_same]
      simp [findVal]
    · have hkm : k ∈ dictKeys rest := by
        simp only [dictKeys, List.map_cons, List.mem_cons] at hmem
        rcases hmem with h | h
        · exact absurd h hk
        · simpa [dictKeys] using h
      rw [ih _ k hnd' hkm]
      have : ¬ (p.1 = k) := fun hh => hk hh.symm
      simp [findVal, this]

theorem hasKey_setAll_mono {κ ν : Type} [DecidableEq κ] :
    ∀ (l : List (κ × ν)) (acc : PyDict κ ν) (k : κ), hasKey acc k = true →
      hasKey (setAll acc l) k = true := by
  intro l
  induction l with
  | nil => intro acc k h; exact h
  | cons p rest ih =>
    intro acc k h
    rw [setAll, List.foldl_cons, ← setAll]
    have hstep : hasKey (setKey acc p.1 p.2) k = true := by
      rw [hasKey_setKey acc p.1 k p.2, h]
      simp
    exact ih (setKey acc p.1 p.2) k hstep

theorem hasKey_setAll_of_mem {κ ν : Type} [DecidableEq κ] :
    ∀ (l : List (κ × ν)) (acc : PyDict κ ν) (k : κ), k ∈ dictKeys l →
      hasKey (setAll acc l) k = true := by
  intro l
  induction l with
  | nil => intro acc k h; simp [dictKeys] at h
  | cons p rest ih =>
    intro acc k h
    rw [setAll, List.foldl_cons, ← setAll]
    simp only [dictKeys, List.map_cons, List.mem_cons] at h
    by_cases hk : k = p.1
    · subst hk
      have hstep : hasKey (setKey acc p.1 p.2) p.1 = true := by
        rw [hasKey_setKey acc p.1 p.1 p.2]
        simp
      exact hasKey_setAll_mono rest (setKey acc p.1 p.2) p.1 hstep
    · rcases h with h | h
      · exact absurd h hk
      · exact ih (setKey acc p.1 p.2) k (by simpa [dictKeys] using h)

theorem setAll_rebuild {κ ν : Type} [DecidableEq κ] :
    ∀ (l : List (κ × ν)) (acc : PyDict κ ν), NodupKeys l →
      (∀ k, k ∈ dictKeys l → hasKey acc k = false) →
      setAll acc l = acc ++ l := by
  intro l
  induction l with
  | nil => intro acc _ _; simp [setAll]
  | cons p rest ih =>
    intro acc hnd hdisj
    have hnd' : NodupKeys rest := (List.nodup_cons.mp hnd).2
    have hp : hasKey acc p.1 = false := hdisj p.1 (by simp [dictKeys])
    rw [setAll, List.foldl_cons, ← setAll]
    have hset : setKey acc p.1 p.2 = acc ++ [p] := by
      unfold setKey
      rw [if_neg (by simp [hp])]
    rw [hset, ih (acc ++ [p]) hnd' ?_]
    · simp
    · intro k hk
      have hk1 : hasKey acc k = false := by
        apply hdisj k
        simp only [dictKeys, List.map_cons, List.mem_cons]
        right
        simpa [dictKeys] using hk
      have hk2 : ¬ (k = p.1) := by
        intro hh
        subst hh
        exact (List.nodup_cons.mp hnd).1 hk
      have hfind : findVal (acc ++ [p]) k = none := by
        rw [show acc ++ [p] = setKey acc p.1 p.2 from hset.symm,
          findVal_setKey_other acc p.1 k p.2 hk2]
        exact (findVal_none_iff_hasKey_false acc k).mpr hk1
      rw [← findVal_isSome_iff_hasKey (acc ++ [p]) k, hfind]
      rfl

theorem findVal_mapVals {κ ν μ : Type} [DecidableEq κ] (f : ν → μ) :
    ∀ (m : PyDict κ ν) (k : κ),
      findVal (m.map (fun kv => (kv.1, f kv.2))) k = (findVal m k).map f := by
  intro m
  induction m with
  | nil => intro k; rfl
  | cons p rest ih =>
    intro k
    by_cases hp : p.1 = k
    · simp [findVal, hp]
    · simpa [findVal, hp] using ih k

/-! ### Stage lemmas for the token special cases -/

theorem findVal_specialCr2 (fn3 : String) (o : PyDict String Val) (k : String)
    (hk : k ≠ "TYPE") : findVal (specialCr2 fn3 o) k = findVal o k := by
  unfold specialCr2
  split
  · exact findVal_setKey_other o "TYPE" k (some "LIGHT") hk
  · rfl

theorem findVal_specialSettemp (o : PyDict String Val) (k : String)
    (hk : k ≠ "SET-TEMP") : findVal (specialSettemp o) k = findVal o k := by
  unfold specialSettemp
  cases hst : findVal o "SETTEMP" with
  | some v => exact findVal_setKey_other o "SET-TEMP" k v hk
  | none => rfl

set_option maxRecDepth 10000

/-! ### Claims -/

/-- C4: for every dataset, calling `filter_metadata` with a `None` or empty
predicate map raises the invalid-filter error and selects nothing. -/
theorem C4_filter_metadata_rejects_empty (data : List (String × PyDict String Val)) :
    filter_metadata data none = Except.error "Invalid filter data" ∧
    filter_metadata data (some []) = Except.error "Invalid filter data" :=
  ⟨rfl, rfl⟩

/-- Headers holding all seven required keys of `normalize_filename` with
`type = LIGHT` but no `focal_ratio` (and no `targetname`). -/
def lightHeadersNoFocal : PyDict String Val :=
  [("type", some "LIGHT"), ("optic", some "C8"), ("camera", some "ZWOASI2600"),
   ("date", some "2025-04-13"), ("exposureseconds", some "60.00"),
   ("datetime", some "2025-04-13_19-31-10"), ("filter", some "H")]

/-- C9: the seven-key required-header check does not make the LIGHT branch
safe: with all seven checked keys present but `focal_ratio` absent, the bare
`headers['focal_ratio']` lookup fails with a `KeyError`, which is distinct
from the missing-required-header error, instead of returning a path. -/
theorem C9_light_branch_keyError :
    (∀ rh ∈ REQUIRED_HEADERS, hasKey lightHeadersNoFocal rh = true) ∧
    hasKey lightHeadersNoFocal "focal_ratio" = false ∧
    normalize_filename "out" "foo.fits" lightHeadersNoFocal none =
      Except.error (NFError.keyError "focal_ratio") ∧
    ∀ h f, NFError.keyError "focal_ratio" ≠ NFError.missingHeader h f :=
  ⟨by decide, by decide, by decide, fun h f hh => NFError.noConfusion hh⟩

/-- The attribute mapping of the C1 round-trip claim, in its literal order. -/
def roundtripAttrs : PyDict String Val :=
  [("type", some "LIGHT"), ("optic", some "C8"), ("camera", some "ZWOASI2600"),
   ("focal_ratio", some "7.0"), ("targetname", some "M42"), ("date", some "2025-04-13"),
   ("datetime", some "2025-04-13_19-31-10"), ("filter", some "H"),
   ("exposureseconds", some "60.00")]

/-- The path `normalize_filename` composes from `roundtripAttrs`. -/
def roundtripPath : String :=
  "data/C8@f7.0+ZWOASI2600/M42/DATE_2025-04-13/FILTER_H_EXP_60.00/2025-04-13_19-31-10.fits"

/-- C1 (counterexample): the composed LIGHT path encodes no `type` token at
all, so re-extracting with `get_file_headers` (profile-from-path, normalized)
yields a mapping with NO `type` attribute, not `type = LIGHT` as the claim
requires. -/
theorem C1_roundtrip_type_not_recovered :
    normalize_filename "data" "foo.fits" roundtripAttrs none = Except.ok roundtripPath ∧
    (get_file_headers roundtripPath true true true).map (fun m => findVal m "type") =
      Except.ok none ∧
    (Except.ok (none : Option Val) : Except String (Option Val)) ≠
      Except.ok (some (some "LIGHT")) :=
  ⟨by decide, by decide, by decide⟩

/-- C1 (amended): round-tripping the claim's attribute mapping through
`normalize_filename` and `get_file_headers` (profile-from-path, normalized)
recovers `optic`, `focal_ratio`, `camera`, `date`, `filter` and
`exposureseconds` unchanged; `type` is not recovered because the composed
LIGHT path does not encode it. -/
theorem C1_roundtrip_profile_attrs_recovered :
    normalize_filename "data" "foo.fits" roundtripAttrs none = Except.ok roundtripPath ∧
    (get_file_headers roundtripPath true true true).map (fun m =>
      [findVal m "optic", findVal m "focal_ratio", findVal m "camera", findVal m "date",
       findVal m "filter", findVal m "exposureseconds"]) =
      Except.ok [some (some "C8"), some (some "7.0"), some (some "ZWOASI2600"),
        some (some "2025-04-13"), some (some "H"), some (some "60.00")] :=
  ⟨by decide, by decide⟩

/-- C7 (counterexample): an `EXPOSURE` token value that contains `s` but does
not END in `s` is still rewritten — `str.replace` removes every `s`, so
`"3s0"` is recorded as `"30"`, not unchanged as the claim requires. -/
theorem C7_exposure_not_only_suffix :
    (get_file_headers "EXPOSURE_3s0.fits" false true false).map (fun m => findVal m "EXPOSURE") =
      Except.ok (some (some "30")) ∧
    (some (some "30") : Option Val) ≠ some (some "3s0") :=
  ⟨by decide, by decide⟩

/-- C7 (amended): whenever tokenization records an `EXPOSURE` value, the
special-case pass records that value with EVERY `s` character removed (a value
containing no `s` is recorded unchanged, since replacement is then the
identity); in particular `"30s"` becomes `"30"` and normalizes to
`exposureseconds = "30.00"`. -/
theorem C7_exposure_strips_every_s (filename : String) (pfp ofp : Bool) (v : String)
    (h : findVal (rawTokens filename pfp ofp) "EXPOSURE" = some (some v)) :
    (get_file_headers filename pfp ofp false).map (fun m => findVal m "EXPOSURE") =
      Except.ok (some (some (pyReplace v "s" ""))) := by
  have h2 : findVal (specialCr2 (rewriteFilename filename pfp ofp)
      (rawTokens filename pfp ofp)) "EXPOSURE" = some (some v) := by
    rw [findVal_specialCr2 _ _ _ (by decide)]
    exact h
  have h3 : findVal (specialSettemp (specialCr2 (rewriteFilename filename pfp ofp)
      (rawTokens filename pfp ofp))) "EXPOSURE" = some (some v) := by
    rw [findVal_specialSettemp _ _ (by decide)]
    exact h2
  have hgf : get_file_headers filename pfp ofp false =
      Except.ok (applyTokenSpecialCases (rewriteFilename filename pfp ofp)
        (rawTokens filename pfp ofp)) := rfl
  rw [hgf]
  simp only [Except.map]
  unfold applyTokenSpecialCases
  have he : specialExposure (specialSettemp (specialCr2 (rewriteFilename filename pfp ofp)
      (rawTokens filename pfp ofp))) =
      if pyIn "s" v = true then
        setKey (specialSettemp (specialCr2 (rewriteFilename filename pfp ofp)
          (rawTokens filename pfp ofp))) "EXPOSURE" (some (pyReplace v "s" ""))
      else specialSettemp (specialCr2 (rewriteFilename filename pfp ofp)
        (rawTokens filename pfp ofp)) := by
    unfold specialExposure
    rw [h3]
  rw [he]
  by_cases hs : pyIn "s" v = true
  · rw [if_pos hs]
    exact congrArg Except.ok (findVal_setKey_same _ "EXPOSURE" (some (pyReplace v "s" "")))
  · rw [if_neg hs]
    rw [pyReplace_no_occurrence v "s" "" (by simpa using hs)]
    exact congrArg Except.ok h3

/-- Witness for C7: the tokenizer extracts `EXPOSURE = "30s"` from
`EXPOSURE_30s.fits`, the recorded value is `"30"`, and with normalization on
it becomes `exposureseconds = "30.00"`. -/
theorem C7_exposure_strips_every_s_witness :
    (get_file_headers "EXPOSURE_30s.fits" false true false).map (fun m => findVal m "EXPOSURE") =
      Except.ok (some (some (pyReplace "30s" "s" ""))) ∧
    (get_file_headers "EXPOSURE_30s.fits" false true true).map
      (fun m => findVal m "exposureseconds") = Except.ok (some (some "30.00")) :=
  ⟨C7_exposure_strips_every_s "EXPOSURE_30s.fits" false true "30s" (by decide), by decide⟩

/-! ### Stage lemmas for `splitPanelStep` and `injectConstants` -/

theorem injectConstants_eq (o : PyDict String Val) :
    injectConstants o =
      if findVal o "camera" = some (some "DWARFIII") then
        (let o1 := if hasKey o "focal_ratio" then o else setKey o "focal_ratio" (some "4.3")
         if hasKey o1 "type" then o1 else setKey o1 "type" (some "LIGHT"))
      else o := rfl

/-- A conditional injection of an absent key preserves every present binding. -/
theorem findVal_condSet_preserve (d : PyDict String Val) (key : String) (val : String)
    (k : String) (v : Val) (hd : findVal d k = some v) :
    findVal (if hasKey d key then d else setKey d key (some val)) k = some v := by
  by_cases hk : hasKey d key = true
  · rw [if_pos hk]; exact hd
  · rw [if_neg hk]
    have hne : k ≠ key := by
      intro hh
      subst hh
      rw [← findVal_isSome_iff_hasKey, hd] at hk
      exact hk rfl
    exact findVal_setKey_preserve d key k (some val) v hd hne

theorem findVal_injectConstants_preserve (o : PyDict String Val) (k : String) (v : Val)
    (h : findVal o k = some v) : findVal (injectConstants o) k = some v := by
  rw [injectConstants_eq]
  by_cases hc : findVal o "camera" = some (some "DWARFIII")
  · rw [if_pos hc]
    exact findVal_condSet_preserve _ "type" "LIGHT" k v
      (findVal_condSet_preserve o "focal_ratio" "4.3" k v h)
  · rw [if_neg hc]; exact h

theorem hasKey_condSet (d : PyDict String Val) (key : String) (val : String) (k : String) :
    hasKey (if hasKey d key then d else setKey d key (some val)) k =
      (hasKey d k || decide (k = key)) := by
  by_cases hk : hasKey d key = true
  · rw [if_pos hk]
    by_cases hkk : k = key
    · subst hkk; simp [hk]
    · simp [hkk]
  · rw [if_neg hk, hasKey_setKey]

theorem findVal_condSet_absent (d : PyDict String Val) (key : String) (val : String)
    (k : String) (hne : k ≠ key) :
    findVal (if hasKey d key then d else setKey d key (some val)) k = findVal d k := by
  by_cases hk : hasKey d key = true
  · rw [if_pos hk]
  · rw [if_neg hk]
    exact findVal_setKey_other d key k (some val) hne

theorem injectConstants_new (o : PyDict String Val) (k : String) (v : Val)
    (hk : hasKey o k = false) (hv : findVal (injectConstants o) k = some v) :
    findVal o "camera" = some (some "DWARFIII") ∧
    ((k = "focal_ratio" ∧ v = some "4.3") ∨ (k = "type" ∧ v = some "LIGHT")) := by
  rw [injectConstants_eq] at hv
  by_cases hc : findVal o "camera" = some (some "DWARFIII")
  · rw [if_pos hc] at hv
    refine ⟨hc, ?_⟩
    have habs : findVal o k = none := (findVal_none_iff_hasKey_false o k).mpr hk
    by_cases hkf : k = "focal_ratio"
    · subst hkf
      left
      refine ⟨rfl, ?_⟩
      rw [if_neg (by simp [hk] : ¬ hasKey o "focal_ratio" = true)] at hv
      have h1 : findVal (setKey o "focal_ratio" (some "4.3")) "focal_ratio" = some (some "4.3") :=
        findVal_setKey_same o "focal_ratio" (some "4.3")
      by_cases ht : hasKey (setKey o "focal_ratio" (some "4.3")) "type" = true
      · rw [if_pos ht] at hv
        rw [h1] at hv
        exact (Option.some.inj hv).symm
      · rw [if_neg ht] at hv
        rw [findVal_setKey_other _ "type" "focal_ratio" (some "LIGHT") (by decide), h1] at hv
        exact (Option.some.inj hv).symm
    · by_cases hkt : k = "type"
      · subst hkt
        right
        refine ⟨rfl, ?_⟩
        have h01 : findVal (if hasKey o "focal_ratio" then o
            else setKey o "focal_ratio" (some "4.3")) "type" = none := by
          rw [findVal_condSet_absent o "focal_ratio" "4.3" "type" (by decide)]
          exact habs
        have h02 : hasKey (if hasKey o "focal_ratio" then o
            else setKey o "focal_ratio" (some "4.3")) "type" = false := by
          rw [← findVal_none_iff_hasKey_false]
          exact h01
        rw [if_neg (by simp [h02])] at hv
        rw [findVal_setKey_same _ "type" (some "LIGHT")] at hv
        exact (Option.some.inj hv).symm
      · exfalso
        rw [findVal_condSet_absent _ "type" "LIGHT" k hkt,
          findVal_condSet_absent o "focal_ratio" "4.3" k hkf, habs] at hv
        exact Option.noConfusion hv
  · rw [if_neg hc] at hv
    rw [(findVal_none_iff_hasKey_false o k).mpr hk] at hv
    exact absurd hv (by simp)

theorem findVal_splitPanelStep_other (o : PyDict String Val) (k : String)
    (h1 : k ≠ "targetname") (h2 : k ≠ "panel") :
    findVal (splitPanelStep o) k = findVal o k := by
  unfold splitPanelStep
  by_cases hp : hasKey o "panel" = true
  · rw [if_pos hp]
  · rw [if_neg hp]
    cases htn : findVal o "targetname" with
    | none => rfl
    | some w =>
      cases w with
      | none => rfl
      | some t =>
        show findVal (if t.data.isEmpty = true then o
          else
            setKey (setKey o "targetname" (some (normalize_target_name t).1)) "panel"
              (some (normalize_target_name t).2)) k = findVal o k
        by_cases he : t.data.isEmpty = true
        · rw [if_pos he]
        · rw [if_neg he]
          rw [findVal_setKey_other _ "panel" k _ h2,
            findVal_setKey_other _ "targetname" k _ h1]

/-- C6 (counterexample): when `panel` is already present, `normalize_headers`
does NOT split a `targetname` containing `" Panel "` — the claim, which has no
panel-absence condition, requires `targetname` to become `"M42"` here. -/
theorem C6_split_skipped_when_panel_present :
    normalize_headers [("targetname", some "M42 Panel 3"), ("panel", some "7")] =
      Except.ok [("targetname", some "M42 Panel 3"), ("panel", some "7")] ∧
    ("M42 Panel 3" : String) ≠ "M42" :=
  ⟨by decide, by decide⟩

/-- C6 (amended): if, after the per-key pass, `panel` is absent and
`targetname` holds a value containing `" Panel "`, then `normalize_headers`
splits at the LAST occurrence: `targetname` keeps the prefix with every single
quote stripped, and `panel` receives the suffix (which contains no further
`" Panel "`). -/
theorem C6_target_panel_split (m o : PyDict String Val) (t : String)
    (hok : perKeySteps [] m = Except.ok o)
    (hpanel : hasKey o "panel" = false)
    (htn : findVal o "targetname" = some (some t))
    (hcontains : pyIn " Panel " t = true) :
    ∃ pre suf : List Char,
      t.data = pre ++ " Panel ".data ++ suf ∧
      containsSub " Panel ".data suf = false ∧
      normalize_headers m = Except.ok (injectConstants (splitPanelStep o)) ∧
      findVal (injectConstants (splitPanelStep o)) "targetname" =
        some (some (pyReplace ⟨pre⟩ squote "")) ∧
      findVal (injectConstants (splitPanelStep o)) "panel" = some (some ⟨suf⟩) := by
  have hne : " Panel ".data ≠ [] := by decide
  obtain ⟨pre, suf, hsplit⟩ := lastSplit_of_contains " Panel ".data hne t.data hcontains
  refine ⟨pre, suf, (lastSplit_append _ t.data pre suf hsplit).symm, 
    lastSplit_suffix_not_contains _ hne t.data pre suf hsplit, ?_, ?_, ?_⟩
  · unfold normalize_headers
    rw [hok]
  all_goals {
    have hemp : t.data.isEmpty = false := by
      have := lastSplit_append " Panel ".data t.data pre suf hsplit
      cases hd : t.data with
      | nil => rw [hd] at this; simp at this
      | cons c cs => rfl
    have hx : normalize_target_name t = (pyReplace ⟨pre⟩ squote "", (⟨suf⟩ : String)) := by
      unfold normalize_target_name
      rw [hsplit]
    have hps : splitPanelStep o =
        setKey (setKey o "targetname" (some (pyReplace ⟨pre⟩ squote ""))) "panel"
          (some ⟨suf⟩) := by
      unfold splitPanelStep
      rw [if_neg (by simp [hpanel]), htn]
      show (if t.data.isEmpty = true then o
        else
          setKey (setKey o "targetname" (some (normalize_target_name t).1)) "panel"
            (some (normalize_target_name t).2)) = _
      rw [if_neg (by simp [hemp]), hx]
    rw [hps]
    first
    | exact findVal_injectConstants_preserve _ "targetname" _
        (findVal_setKey_preserve _ "panel" "targetname" _ _
          (findVal_setKey_same o "targetname" _) (by decide))
    | exact findVal_injectConstants_preserve _ "panel" _
        (findVal_setKey_same _ "panel" _)
  }

/-- Witness for C6: normalizing `{OBJECT: "M42 Panel 3"}` splits the target
name into `targetname = "M42"`, `panel = "3"`. -/
theorem C6_target_panel_split_witness :
    ∃ pre suf : List Char,
      ("M42 Panel 3" : String).data = pre ++ " Panel ".data ++ suf ∧
      containsSub " Panel ".data suf = false ∧
      normalize_headers [("OBJECT", some "M42 Panel 3")] =
        Except.ok (injectConstants (splitPanelStep [("targetname", some "M42 Panel 3")])) ∧
      findVal (injectConstants (splitPanelStep [("targetname", some "M42 Panel 3")]))
        "targetname" = some (some (pyReplace ⟨pre⟩ squote "")) ∧
      findVal (injectConstants (splitPanelStep [("targetname", some "M42 Panel 3")]))
        "panel" = some (some ⟨suf⟩) :=
  C6_target_panel_split [("OBJECT", some "M42 Panel 3")]
    [("targetname", some "M42 Panel 3")] "M42 Panel 3" (by decide) (by decide) (by decide)
    (by decide)

/-- The C8 example headers: an explicit `focal_ratio` together with the
`DWARFIII` camera. -/
def dwarfHeaders : PyDict String Val :=
  [("camera", some "DWARFIII"), ("focal_ratio", some "5.0")]

/-- C8: the `CONSTANT_NORMALIZATION_DATA` pass never overwrites a present
attribute, and it injects a new attribute only when `camera = "DWARFIII"`,
with the table's values `focal_ratio = "4.3"` or `type = "LIGHT"`. -/
theorem C8_constants_never_overwrite (m o : PyDict String Val)
    (hok : perKeySteps [] m = Except.ok o) :
    normalize_headers m = Except.ok (injectConstants (splitPanelStep o)) ∧
    (∀ k v, findVal (splitPanelStep o) k = some v →
      findVal (injectConstants (splitPanelStep o)) k = some v) ∧
    (∀ k v, hasKey (splitPanelStep o) k = false →
      findVal (injectConstants (splitPanelStep o)) k = some v →
      findVal (splitPanelStep o) "camera" = some (some "DWARFIII") ∧
      ((k = "focal_ratio" ∧ v = some "4.3") ∨ (k = "type" ∧ v = some "LIGHT"))) := by
  refine ⟨?_, ?_, ?_⟩
  · unfold normalize_headers
    rw [hok]
  · intro k v h
    exact findVal_injectConstants_preserve _ k v h
  · intro k v hk hv
    exact injectConstants_new _ k v hk hv

/-- Witness for C8: with `camera = "DWARFIII"` and an explicit
`focal_ratio = "5.0"`, normalization keeps `"5.0"` (it is not overridden to
the table's `"4.3"`). -/
theorem C8_constants_never_overwrite_witness :
    perKeySteps [] dwarfHeaders = Except.ok dwarfHeaders ∧
    findVal (splitPanelStep dwarfHeaders) "focal_ratio" = some (some "5.0") ∧
    findVal (injectConstants (splitPanelStep dwarfHeaders)) "focal_ratio" = some (some "5.0") ∧
    normalize_headers dwarfHeaders = Except.ok (injectConstants (splitPanelStep dwarfHeaders)) :=
  ⟨by decide, by decide,
   (C8_constants_never_overwrite dwarfHeaders dwarfHeaders (by decide)).2.1 "focal_ratio"
     (some "5.0") (by decide),
   (C8_constants_never_overwrite dwarfHeaders dwarfHeaders (by decide)).1⟩

/-! ### Spec-side description of the filter branch semantics (for C3) -/

/-- Python `float(value)` on a datum value (`float(None)` raises, i.e. fails). -/
def valFloat : Val → Option (Int × Nat)
  | none => none
  | some s => pyFloat s

/-- The claim's branch semantics, written from its words: a callable returns
true on the datum's value; an integer predicate equals `int(float(value))`
with coercion failure a non-match; a float predicate equals `float(value)`
likewise; any other predicate equals the stringified value exactly. -/
def SpecBranchPass : FilterVal → Val → Prop
  | FilterVal.callable f, v => f v = true
  | FilterVal.int n, v => ∃ a b, valFloat v = some (a, b) ∧ pyTruncInt a b = n
  | FilterVal.float x, v => ∃ a b, valFloat v = some (a, b) ∧ mkRat a b = x
  | FilterVal.str t, v => pyStr v = t
  | FilterVal.pynone, _ => False

/-- The claim's match semantics: every predicate key present in the datum
passes its branch check; keys absent from the datum never exclude it. -/
def SpecMatch (fs : List (String × FilterVal)) (datum : PyDict String Val) : Prop :=
  ∀ k fv, (k, fv) ∈ fs → ∀ v, findVal datum k = some v → SpecBranchPass fv v

theorem checkFilter_iff (fv : FilterVal) (v : Val) :
    checkFilter fv v = true ↔ SpecBranchPass fv v := by
  cases fv with
  | callable f => exact Iff.rfl
  | int n =>
    cases v with
    | none => simp [checkFilter, SpecBranchPass, valFloat]
    | some s =>
      cases hp : pyFloat s with
      | none => simp [checkFilter, SpecBranchPass, valFloat, hp]
      | some ab =>
        obtain ⟨a, b⟩ := ab
        simp only [checkFilter, SpecBranchPass, valFloat, hp, decide_eq_true_eq,
          Option.some.injEq, Prod.mk.injEq]
        constructor
        · intro h; exact ⟨a, b, ⟨rfl, rfl⟩, h⟩
        · rintro ⟨a2, b2, ⟨rfl, rfl⟩, h⟩; exact h
  | float x =>
    cases v with
    | none => simp [checkFilter, SpecBranchPass, valFloat]
    | some s =>
      cases hp : pyFloat s with
      | none => simp [checkFilter, SpecBranchPass, valFloat, hp]
      | some ab =>
        obtain ⟨a, b⟩ := ab
        simp only [checkFilter, SpecBranchPass, valFloat, hp, decide_eq_true_eq,
          Option.some.injEq, Prod.mk.injEq]
        constructor
        · intro h; exact ⟨a, b, ⟨rfl, rfl⟩, h⟩
        · rintro ⟨a2, b2, ⟨rfl, rfl⟩, h⟩; exact h
  | str t => simp [checkFilter, SpecBranchPass]
  | pynone => simp [checkFilter, SpecBranchPass]

theorem datumMatches_iff (fs : List (String × FilterVal)) (datum : PyDict String Val) :
    datumMatches fs datum = true ↔ SpecMatch fs datum := by
  unfold datumMatches SpecMatch
  rw [List.all_eq_true]
  constructor
  · intro h k fv hm v hv
    have hx := h (k, fv) hm
    rw [hv] at hx
    exact (checkFilter_iff fv v).mp hx
  · intro h p hp
    cases hv : findVal datum p.1 with
    | none => rfl
    | some v => exact (checkFilter_iff p.2 v).mpr (h p.1 p.2 hp v hv)

/-- C3: for a non-empty, `None`-free predicate map, `filter_metadata` returns
exactly the data filtered by the loop check, and a (filename, datum) pair is
in the result iff it is in the input and every predicate key present in the
datum passes the claim's branch semantics (absent keys are vacuously
satisfied). -/
theorem C3_filter_match_semantics (data : List (String × PyDict String Val))
    (fs : List (String × FilterVal)) (hne : fs ≠ [])
    (hnn : ∀ kv ∈ fs,
      (match kv.2 with | FilterVal.pynone => true | _ => false) = false) :
    filter_metadata data (some fs) =
      Except.ok (data.filter (fun p => datumMatches fs p.2)) ∧
    ∀ fname datum,
      ((fname, datum) ∈ data.filter (fun p => datumMatches fs p.2) ↔
        ((fname, datum) ∈ data ∧ SpecMatch fs datum)) := by
  constructor
  · have h0 : ¬ fs.length = 0 := by simpa [List.length_eq_zero] using hne
    have h1 : fs.find? (fun kv =>
        match kv.2 with | FilterVal.pynone => true | _ => false) = none := by
      apply List.find?_eq_none.mpr
      intro x hx
      simp [hnn x hx]
    simp only [filter_metadata]
    rw [if_neg h0, h1]
  · intro fname datum
    rw [List.mem_filter]
    constructor
    · rintro ⟨h1, h2⟩
      exact ⟨h1, (datumMatches_iff fs datum).mp h2⟩
    · rintro ⟨h1, h2⟩
      exact ⟨h1, (datumMatches_iff fs datum).mpr h2⟩

/-- The example dataset for the C3 witness: one record without a `gain` key,
one with `gain = "90.00"`. -/
def filterData : List (String × PyDict String Val) :=
  [("a.fits", [("type", some "LIGHT")]),
   ("b.fits", [("type", some "FLAT"), ("gain", some "90.00")])]

/-- The example predicates for the C3 witness. -/
def filterPreds : List (String × FilterVal) :=
  [("type", FilterVal.str "LIGHT"), ("gain", FilterVal.int 100)]

/-- Witness for C3: the gain-less record matches `{type: LIGHT, gain: 100}`
vacuously on `gain`. -/
theorem C3_filter_match_semantics_witness :
    filter_metadata filterData (some filterPreds) =
      Except.ok (filterData.filter (fun p => datumMatches filterPreds p.2)) ∧
    (("a.fits", ([("type", some "LIGHT")] : PyDict String Val)) ∈
        filterData.filter (fun p => datumMatches filterPreds p.2) ↔
      (("a.fits", ([("type", some "LIGHT")] : PyDict String Val)) ∈ filterData ∧
        SpecMatch filterPreds [("type", some "LIGHT")])) :=
  ⟨(C3_filter_match_semantics filterData filterPreds (by simp [filterPreds]) (by decide)).1,
   (C3_filter_match_semantics filterData filterPreds (by simp [filterPreds]) (by decide)).2
     "a.fits" [("type", some "LIGHT")]⟩

/-! ### Lemmas for the `get_metadata` / `enrich_metadata` selection (C10) -/

theorem buildDataAux_preserve (pfp : Bool) :
    ∀ (fns : List String) (acc data : PyDict Val (PyDict String Val)),
      buildDataAux pfp acc fns = Except.ok data →
      (∀ g ∈ fns, ∃ d, get_file_headers g pfp true true = Except.ok d ∧
        findVal d "filename" = some (some g)) →
      ∀ k : Val, (∀ g ∈ fns, k ≠ some g) → findVal data k = findVal acc k := by
  intro fns
  induction fns with
  | nil =>
    intro acc data hb _ k _
    cases hb
    rfl
  | cons g rest ih =>
    intro acc data hb hall k hk
    obtain ⟨dg, hdg, hfng⟩ := hall g (List.mem_cons_self g rest)
    rw [buildDataAux, hdg] at hb
    dsimp only at hb
    rw [hfng] at hb
    have hrest : ∀ g2 ∈ rest, ∃ d, get_file_headers g2 pfp true true = Except.ok d ∧
        findVal d "filename" = some (some g2) :=
      fun g2 hg2 => hall g2 (List.mem_cons_of_mem g hg2)
    rw [ih (setKey acc (some g) dg) data hb hrest k
      (fun g2 hg2 => hk g2 (List.mem_cons_of_mem g hg2))]
    exact findVal_setKey_other acc (some g) k dg (hk g (List.mem_cons_self g rest))

theorem buildDataAux_find (pfp : Bool) :
    ∀ (fns : List String) (acc data : PyDict Val (PyDict String Val)),
      buildDataAux pfp acc fns = Except.ok data →
      (∀ g ∈ fns, ∃ d, get_file_headers g pfp true true = Except.ok d ∧
        findVal d "filename" = some (some g)) →
      ∀ fn ∈ fns, ∃ d, get_file_headers fn pfp true true = Except.ok d ∧
        findVal data (some fn) = some d := by
  intro fns
  induction fns with
  | nil => intro acc data _ _ fn hfn; cases hfn
  | cons g rest ih =>
    intro acc data hb hall fn hfn
    obtain ⟨dg, hdg, hfng⟩ := hall g (List.mem_cons_self g rest)
    rw [buildDataAux, hdg] at hb
    dsimp only at hb
    rw [hfng] at hb
    have hrest : ∀ g2 ∈ rest, ∃ d, get_file_headers g2 pfp true true = Except.ok d ∧
        findVal d "filename" = some (some g2) :=
      fun g2 hg2 => hall g2 (List.mem_cons_of_mem g hg2)
    by_cases hmem : fn ∈ rest
    · exact ih (setKey acc (some g) dg) data hb hrest fn hmem
    · have hfg : fn = g := by
        rcases List.mem_cons.mp hfn with h | h
        · exact h
        · exact absurd h hmem
      subst hfg
      refine ⟨dg, hdg, ?_⟩
      have hnk : ∀ g2 ∈ rest, (some fn : Val) ≠ some g2 := by
        intro g2 hg2 hh
        exact hmem ((Option.some.inj hh) ▸ hg2)
      rw [buildDataAux_preserve pfp rest (setKey acc (some fn) dg) data hb hrest
        (some fn) hnk]
      exact findVal_setKey_same acc (some fn) dg

theorem findVal_padDatum_present (req : List String) :
    ∀ (d : PyDict String Val) (k : String), hasKey d k = true →
      findVal (padDatum req d) k = findVal d k := by
  induction req with
  | nil => intro d k _; rfl
  | cons p rest ih =>
    intro d k hk
    rw [padDatum, List.foldl_cons]
    by_cases hp : hasKey d p = true
    · rw [if_pos hp]
      exact ih d k hk
    · rw [if_neg hp]
      have hne : k ≠ p := by
        intro hh
        subst hh
        exact hp hk
      have hk2 : hasKey (setKey d p none) k = true := by
        rw [hasKey_setKey]
        simp [hk]
      rw [show List.foldl (fun d p => if hasKey d p then d else setKey d p none)
          (setKey d p none) rest = padDatum rest (setKey d p none) from rfl]
      rw [ih (setKey d p none) k hk2]
      exact findVal_setKey_other d p k none hne

theorem findVal_padDatum_absent (req : List String) :
    ∀ (d : PyDict String Val) (k : String), hasKey d k = false → k ∈ req →
      findVal (padDatum req d) k = some none := by
  induction req with
  | nil => intro d k _ hm; cases hm
  | cons p rest ih =>
    intro d k hk hm
    rw [padDatum, List.foldl_cons]
    by_cases hkp : k = p
    · subst hkp
      rw [if_neg (by simp [hk])]
      rw [show List.foldl (fun d p => if hasKey d p then d else setKey d p none)
          (setKey d k none) rest = padDatum rest (setKey d k none) from rfl]
      rw [findVal_padDatum_present rest (setKey d k none) k
        (by rw [hasKey_setKey]; simp)]
      exact findVal_setKey_same d k none
    · have hm2 : k ∈ rest := by
        rcases List.mem_cons.mp hm with h | h
        · exact absurd h hkp
        · exact h
      by_cases hp : hasKey d p = true
      · rw [if_pos hp]
        exact ih d k hk hm2
      · rw [if_neg hp]
        rw [show List.foldl (fun d p => if hasKey d p then d else setKey d p none)
            (setKey d p none) rest = padDatum rest (setKey d p none) from rfl]
        have hk2 : hasKey (setKey d p none) k = false := by
          rw [hasKey_setKey]
          simp [hk, hkp]
        exact ih (setKey d p none) k hk2 hm2

theorem propMissing_padDatum (req : List String) (d : PyDict String Val) (k : String)
    (hk : k ∈ req) (hmiss : propMissing d k = true) :
    propMissing (padDatum req d) k = true := by
  by_cases hp : hasKey d k = true
  · unfold propMissing at hmiss ⊢
    rw [findVal_padDatum_present req d k hp]
    exact hmiss
  · unfold propMissing
    rw [findVal_padDatum_absent req d k (by simp [hp]) hk]

theorem enrichContrib_mem (req : List String) (pd : PyDict String Val) (w : Val)
    (hreq : "targetname" ∈ req) (hmiss : propMissing pd "targetname" = true)
    (hfile : findVal pd "filename" = some w) :
    ∃ c, enrichContrib req pd = Except.ok c ∧ w ∈ c := by
  unfold enrichContrib
  have hmem : "targetname" ∈ req.filter (fun rp => propMissing pd rp) :=
    List.mem_filter.mpr ⟨hreq, hmiss⟩
  have hne : (req.filter (fun rp => propMissing pd rp)).isEmpty = false := by
    cases hl : req.filter (fun rp => propMissing pd rp) with
    | nil => rw [hl] at hmem; cases hmem
    | cons a as => rfl
  rw [if_neg (by simp [hne]), hfile]
  refine ⟨_, rfl, ?_⟩
  exact List.mem_map.mpr ⟨"targetname", hmem, rfl⟩

theorem enrichSelection_mem (req : List String) :
    ∀ (data : PyDict Val (PyDict String Val)) (te : List Val),
      enrichSelection req data = Except.ok te →
      ∀ (k : Val) (pd : PyDict String Val), (k, pd) ∈ data →
      ∀ c, enrichContrib req pd = Except.ok c → ∀ x ∈ c, x ∈ te := by
  intro data
  induction data with
  | nil => intro te _ k pd hm; cases hm
  | cons kv rest ih =>
    intro te hsel k pd hm c hc x hx
    rw [enrichSelection] at hsel
    cases hc0 : enrichContrib req kv.2 with
    | error e => rw [hc0] at hsel; cases hsel
    | ok c0 =>
      rw [hc0] at hsel
      cases hcs : enrichSelection req rest with
      | error e => rw [hcs] at hsel; cases hsel
      | ok cs =>
        rw [hcs] at hsel
        have hte : te = c0 ++ cs := (Except.ok.inj hsel).symm
        subst hte
        rcases List.mem_cons.mp hm with h | h
        · have : pd = kv.2 := congrArg Prod.snd h
          subst this
          rw [hc0] at hc
          have : c = c0 := (Except.ok.inj hc).symm
          subst this
          exact List.mem_append_left cs hx
        · exact List.mem_append_right c0 (ih cs hcs k pd h c hc x hx)

/-- C10: `get_metadata` always appends `targetname` to the caller's required
properties, so every scanned file whose path-derived metadata lacks a
non-empty `targetname` is put on the (sorted) `to_enrich` list — the list of
files whose containers the enrichment loop opens — no matter which required
properties the caller asked for. -/
theorem C10_targetname_always_forced (filenames : List String) (pfp : Bool)
    (req : List String) (fn : String)
    (hfn : fn ∈ filenames)
    (hall : ∀ g ∈ filenames, ∃ d, get_file_headers g pfp true true = Except.ok d ∧
      findVal d "filename" = some (some g))
    (hmiss : ∀ d, get_file_headers fn pfp true true = Except.ok d →
      propMissing d "targetname" = true) :
    "targetname" ∈ appendTargetname req ∧
    ∀ out, get_metadata_selection filenames pfp req = Except.ok out →
      some fn ∈ out.2.2 := by
  have htn : "targetname" ∈ appendTargetname req := by
    unfold appendTargetname
    by_cases h : "targetname" ∈ req
    · rw [if_pos h]; exact h
    · rw [if_neg h]; exact List.mem_append_right req (List.mem_singleton.mpr rfl)
  refine ⟨htn, ?_⟩
  intro out hout
  unfold get_metadata_selection at hout
  cases hb : buildDataAux pfp [] filenames with
  | error e => rw [hb] at hout; cases hout
  | ok data0 =>
    rw [hb] at hout
    dsimp only at hout
    cases hsel : enrichSelection (appendTargetname req)
        (data0.map (fun kv => (kv.1, padDatum (appendTargetname req) kv.2))) with
    | error e => rw [hsel] at hout; cases hout
    | ok te =>
      rw [hsel] at hout
      have hout2 : out = (appendTargetname req,
          data0.map (fun kv => (kv.1, padDatum (appendTargetname req) kv.2)),
          sortVals te) := (Except.ok.inj hout).symm
      subst hout2
      obtain ⟨d, hd, hfind⟩ := buildDataAux_find pfp filenames [] data0 hb hall fn hfn
      obtain ⟨d2, hd2, hfn2⟩ := hall fn hfn
      have hdd : d2 = d := by
        rw [hd] at hd2
        exact (Except.ok.inj hd2).symm
      subst hdd
      have hfindpad : findVal (data0.map (fun kv =>
          (kv.1, padDatum (appendTargetname req) kv.2))) (some fn) =
          some (padDatum (appendTargetname req) d2) := by
        rw [findVal_mapVals (padDatum (appendTargetname req)) data0 (some fn), hfind]
        rfl
      have hmempair := findVal_mem _ (some fn) _ hfindpad
      have hmisspad : propMissing (padDatum (appendTargetname req) d2) "targetname" = true :=
        propMissing_padDatum (appendTargetname req) d2 "targetname" htn (hmiss d2 hd)
      have hfilepad : findVal (padDatum (appendTargetname req) d2) "filename" =
          some (some fn) := by
        rw [findVal_padDatum_present (appendTargetname req) d2 "filename" ?_]
        · exact hfn2
        · rw [← findVal_isSome_iff_hasKey, hfn2]
          rfl
      obtain ⟨c, hc, hwc⟩ := enrichContrib_mem (appendTargetname req)
        (padDatum (appendTargetname req) d2) (some fn) htn hmisspad hfilepad
      have hte := enrichSelection_mem (appendTargetname req) _ te hsel (some fn)
        (padDatum (appendTargetname req) d2) hmempair c hc (some fn) hwc
      exact (mem_sortVals (some fn) te).mpr hte

/-- The C10 witness file: a calibration-style path with no `OBJECT` token. -/
def darkFile : String := "dir/DARK_1/FILTER_H_EXP_60.00.fits"

/-- Its path-derived headers. -/
def darkHeaders : PyDict String Val :=
  [("filename", some "dir/DARK_1/FILTER_H_EXP_60.00.fits"), ("dark", some "1"),
   ("filter", some "H"), ("h", some "EXP"), ("exposureseconds", some "60.00")]

/-- Witness for C10: the caller only requires `filter`, which the filename
supplies, yet the file is still selected for enrichment because `targetname`
is forced and absent. -/
theorem C10_targetname_always_forced_witness :
    ("targetname" ∈ appendTargetname ["filter"] ∧
      ∀ out, get_metadata_selection [darkFile] false ["filter"] = Except.ok out →
        some darkFile ∈ out.2.2) ∧
    (get_file_headers darkFile false true true).map (fun d => findVal d "filter") =
      Except.ok (some (some "H")) :=
  ⟨C10_targetname_always_forced [darkFile] false ["filter"] darkFile
    (List.mem_singleton.mpr rfl)
    (fun g hg => by
      have hgf : g = darkFile := List.mem_singleton.mp hg
      subst hgf
      exact ⟨darkHeaders, by decide, by decide⟩)
    (fun d hd => by
      have h1 : get_file_headers darkFile false true true = Except.ok darkHeaders := by decide
      rw [h1] at hd
      have h2 : darkHeaders = d := Except.ok.inj hd
      rw [← h2]
      decide),
   by decide⟩

/-! ### Invariants of `normalize_headers` outputs (shared by C2 and C5) -/

theorem findVal_injectConstants_other (o : PyDict String Val) (k : String)
    (h1 : k ≠ "focal_ratio") (h2 : k ≠ "type") :
    findVal (injectConstants o) k = findVal o k := by
  rw [injectConstants_eq]
  by_cases hc : findVal o "camera" = some (some "DWARFIII")
  · rw [if_pos hc]
    rw [findVal_condSet_absent _ "type" "LIGHT" k h2,
      findVal_condSet_absent o "focal_ratio" "4.3" k h1]
  · rw [if_neg hc]

theorem hasKey_injectConstants_mono (o : PyDict String Val) (k : String)
    (h : hasKey o k = true) : hasKey (injectConstants o) k = true := by
  rw [injectConstants_eq]
  by_cases hc : findVal o "camera" = some (some "DWARFIII")
  · rw [if_pos hc]
    show hasKey (if hasKey (if hasKey o "focal_ratio" then o
      else setKey o "focal_ratio" (some "4.3")) "type" then _ else _) k = true
    rw [hasKey_condSet, hasKey_condSet, h]
    simp
  · rw [if_neg hc]; exact h

theorem splitPanelStep_cases (o : PyDict String Val) :
    (hasKey o "panel" = true ∧ splitPanelStep o = o) ∨
    (hasKey o "panel" = false ∧
      (∀ t, findVal o "targetname" = some (some t) → t.data.isEmpty = true) ∧
      splitPanelStep o = o) ∨
    (hasKey o "panel" = false ∧ ∃ t, findVal o "targetname" = some (some t) ∧
      t.data.isEmpty = false ∧
      splitPanelStep o = setKey (setKey o "targetname"
        (some (normalize_target_name t).1)) "panel" (some (normalize_target_name t).2)) := by
  by_cases hp : hasKey o "panel" = true
  · exact Or.inl ⟨hp, by unfold splitPanelStep; rw [if_pos hp]⟩
  · have hp2 : hasKey o "panel" = false := by simpa using hp
    cases htn : findVal o "targetname" with
    | none =>
      refine Or.inr (Or.inl ⟨hp2, fun t ht => Option.noConfusion ht, ?_⟩)
      unfold splitPanelStep
      rw [if_neg hp, htn]
    | some w =>
      cases w with
      | none =>
        refine Or.inr (Or.inl ⟨hp2, fun t ht => Option.noConfusion (Option.some.inj ht), ?_⟩)
        unfold splitPanelStep
        rw [if_neg hp, htn]
      | some t =>
        by_cases he : t.data.isEmpty = true
        · refine Or.inr (Or.inl ⟨hp2, fun t2 ht2 => ?_, ?_⟩)
          · cases Option.some.inj (Option.some.inj ht2)
            exact he
          · unfold splitPanelStep
            rw [if_neg hp, htn]
            show (if t.data.isEmpty = true then o else _) = o
            rw [if_pos he]
        · refine Or.inr (Or.inr ⟨hp2, ⟨t, rfl, by simpa using he, ?_⟩⟩)
          unfold splitPanelStep
          rw [if_neg hp, htn]
          show (if t.data.isEmpty = true then o else _) = _
          rw [if_neg he]

theorem findVal_of_mem_nodup {κ ν : Type} [DecidableEq κ] :
    ∀ (m : PyDict κ ν) (p : κ × ν), NodupKeys m → p ∈ m → findVal m p.1 = some p.2 := by
  intro m
  induction m with
  | nil => intro p _ hp; cases hp
  | cons q rest ih =>
    intro p hnd hp
    rcases List.mem_cons.mp hp with h | h
    · subst h
      simp [findVal]
    · have hq : q.1 ∉ dictKeys rest := (List.nodup_cons.mp hnd).1
      have hne : ¬ (q.1 = p.1) := by
        intro hh
        apply hq
        rw [hh]
        exact List.mem_map.mpr ⟨p, h, rfl⟩
      rw [findVal, if_neg hne]
      exact ih p (List.nodup_cons.mp hnd).2 h

theorem mem_dictKeys_iff {κ ν : Type} (m : PyDict κ ν) (k : κ) :
    k ∈ dictKeys m ↔ ∃ p ∈ m, p.1 = k := by
  unfold dictKeys
  exact List.mem_map

theorem hasKey_setAll_sub {κ ν : Type} [DecidableEq κ] :
    ∀ (l : List (κ × ν)) (acc : PyDict κ ν) (k : κ), hasKey (setAll acc l) k = true →
      hasKey acc k = true ∨ k ∈ dictKeys l := by
  intro l
  induction l with
  | nil => intro acc k h; exact Or.inl h
  | cons p rest ih =>
    intro acc k h
    rw [setAll, List.foldl_cons, ← setAll] at h
    rcases ih (setKey acc p.1 p.2) k h with h2 | h2
    · rw [hasKey_setKey] at h2
      rcases Bool.or_eq_true_iff.mp h2 with h3 | h3
      · exact Or.inl h3
      · right
        simp only [dictKeys, List.map_cons, List.mem_cons]
        exact Or.inl (of_decide_eq_true h3)
    · right
      simp only [dictKeys, List.map_cons, List.mem_cons]
      right
      simpa [dictKeys] using h2

/-- All keys of a dict are fixed points of lower-casing. -/
def LowKeysD (o : PyDict String Val) : Prop := ∀ k ∈ dictKeys o, pyLower k = k

/-- No `astro` or `duo-band` key carries a non-`None` value. -/
def NoAstroDuo (o : PyDict String Val) : Prop :=
  (∀ s, findVal o "astro" ≠ some (some s)) ∧ (∀ s, findVal o "duo-band" ≠ some (some s))

theorem mem_dictKeys_setKey {κ ν : Type} [DecidableEq κ] (m : PyDict κ ν) (k k' : κ) (v : ν)
    (h : k' ∈ dictKeys (setKey m k v)) : k' ∈ dictKeys m ∨ k' = k := by
  rw [← hasKey_iff_mem_keys] at h
  rw [hasKey_setKey] at h
  rcases Bool.or_eq_true_iff.mp h with h2 | h2
  · exact Or.inl ((hasKey_iff_mem_keys m k').mp h2)
  · exact Or.inr (of_decide_eq_true h2)

/-- A key of the conversion table that is a lower-case fixed point can only be
`astro` or `duo-band`. -/
theorem tableKeys_lower (k : String) (hl : pyLower k = k) (h1 : k ≠ "astro")
    (h2 : k ≠ "duo-band") : findVal FILTER_NORMALIZATION_DATA k = none := by
  cases hf : findVal FILTER_NORMALIZATION_DATA k with
  | none => rfl
  | some convs =>
    exfalso
    have hmem := findVal_mem FILTER_NORMALIZATION_DATA k convs hf
    simp only [FILTER_NORMALIZATION_DATA, List.mem_cons, List.not_mem_nil, or_false,
      Prod.mk.injEq] at hmem
    rcases hmem with ⟨hk, -⟩|⟨hk, -⟩|⟨hk, -⟩|⟨hk, -⟩|⟨hk, -⟩|⟨hk, -⟩|⟨hk, -⟩|⟨hk, -⟩|⟨hk, -⟩|
      ⟨hk, -⟩|⟨hk, -⟩|⟨hk, -⟩|⟨hk, -⟩|⟨hk, -⟩|⟨hk, -⟩|⟨hk, -⟩|⟨hk, -⟩|⟨hk, -⟩|⟨hk, -⟩|⟨hk, -⟩
    all_goals subst hk
    all_goals first
      | exact absurd hl (by decide)
      | exact h1 rfl
      | exact h2 rfl

/-- Every canonical key written by the conversion table is a lower-case fixed
point distinct from `astro` and `duo-band`. -/
theorem tableConvs_keys (k : String) (convs : List (String × (String → Except String String)))
    (h : findVal FILTER_NORMALIZATION_DATA k = some convs) :
    ∀ p ∈ convs, pyLower p.1 = p.1 ∧ p.1 ≠ "astro" ∧ p.1 ≠ "duo-band" := by
  have hmem := findVal_mem FILTER_NORMALIZATION_DATA k convs h
  simp only [FILTER_NORMALIZATION_DATA, List.mem_cons, List.not_mem_nil, or_false,
    Prod.mk.injEq] at hmem
  rcases hmem with ⟨-, hc⟩|⟨-, hc⟩|⟨-, hc⟩|⟨-, hc⟩|⟨-, hc⟩|⟨-, hc⟩|⟨-, hc⟩|⟨-, hc⟩|⟨-, hc⟩|
    ⟨-, hc⟩|⟨-, hc⟩|⟨-, hc⟩|⟨-, hc⟩|⟨-, hc⟩|⟨-, hc⟩|⟨-, hc⟩|⟨-, hc⟩|⟨-, hc⟩|⟨-, hc⟩|⟨-, hc⟩
  all_goals subst hc
  all_goals decide

theorem applyConvs_lowNodup (s : String) :
    ∀ (convs : List (String × (String → Except String String)))
      (out o : PyDict String Val), applyConvs s out convs = Except.ok o →
      (∀ p ∈ convs, pyLower p.1 = p.1) → LowKeysD out → NodupKeys out →
      LowKeysD o ∧ NodupKeys o := by
  intro convs
  induction convs with
  | nil =>
    intro out o hok _ hlow hnd
    cases hok
    exact ⟨hlow, hnd⟩
  | cons p rest ih =>
    intro out o hok hkeys hlow hnd
    rw [applyConvs] at hok
    cases hf : p.2 s with
    | error e => rw [hf] at hok; cases hok
    | ok r =>
      rw [hf] at hok
      refine ih (setKey out p.1 (some r)) o hok
        (fun q hq => hkeys q (List.mem_cons_of_mem p hq)) ?_
        (nodupKeys_setKey out p.1 (some r) hnd)
      intro k hk
      rcases mem_dictKeys_setKey out p.1 k (some r) hk with h | h
      · exact hlow k h
      · rw [h]
        exact hkeys p (List.mem_cons_self p rest)

theorem applyConvs_preserve_key (s : String) (bad : String) :
    ∀ (convs : List (String × (String → Except String String)))
      (out o : PyDict String Val), applyConvs s out convs = Except.ok o →
      (∀ p ∈ convs, p.1 ≠ bad) → findVal o bad = findVal out bad := by
  intro convs
  induction convs with
  | nil => intro out o hok _; cases hok; rfl
  | cons p rest ih =>
    intro out o hok hkeys
    rw [applyConvs] at hok
    cases hf : p.2 s with
    | error e => rw [hf] at hok; cases hok
    | ok r =>
      rw [hf] at hok
      rw [ih (setKey out p.1 (some r)) o hok
        (fun q hq => hkeys q (List.mem_cons_of_mem p hq))]
      exact findVal_setKey_other out p.1 bad (some r)
        (fun hh => hkeys p (List.mem_cons_self p rest) hh.symm)

theorem perKeySteps_append :
    ∀ (xs ys : List (String × Val)) (out : PyDict String Val),
      perKeySteps out (xs ++ ys) =
        match perKeySteps out xs with
        | Except.ok o => perKeySteps o ys
        | Except.error e => Except.error e := by
  intro xs
  induction xs with
  | nil => intro ys out; rfl
  | cons p rest ih =>
    intro ys out
    obtain ⟨k, v⟩ := p
    rw [List.cons_append, perKeySteps, perKeySteps]
    cases h : normalizeKeyStep out k v with
    | ok o => simp only; exact ih ys o
    | error e => simp only

theorem noAstroDuo_setKey_none (d : PyDict String Val) (k : String) (h : NoAstroDuo d) :
    NoAstroDuo (setKey d k none) := by
  constructor
  all_goals intro s hs
  · by_cases hk : ("astro" : String) = k
    · subst hk
      rw [findVal_setKey_same] at hs
      cases hs
    · rw [findVal_setKey_other d k "astro" none hk] at hs
      exact h.1 s hs
  · by_cases hk : ("duo-band" : String) = k
    · subst hk
      rw [findVal_setKey_same] at hs
      cases hs
    · rw [findVal_setKey_other d k "duo-band" none hk] at hs
      exact h.2 s hs

theorem perKeySteps_lowNodup :
    ∀ (m : List (String × Val)) (out o : PyDict String Val),
      perKeySteps out m = Except.ok o →
      LowKeysD out → NodupKeys out → LowKeysD o ∧ NodupKeys o := by
  intro m
  induction m with
  | nil =>
    intro out o hok hl hn
    cases hok
    exact ⟨hl, hn⟩
  | cons p rest ih =>
    intro out o hok hl hn
    obtain ⟨k, v⟩ := p
    rw [perKeySteps] at hok
    cases hstep : normalizeKeyStep out k v with
    | error e => rw [hstep] at hok; cases hok
    | ok o1 =>
      rw [hstep] at hok
      have hsetCase : ∀ w, o1 = setKey out (pyLower k) w → LowKeysD o1 ∧ NodupKeys o1 := by
        intro w hw
        subst hw
        constructor
        · intro k2 hk2
          rcases mem_dictKeys_setKey out (pyLower k) k2 w hk2 with h | h
          · exact hl k2 h
          · rw [h]
            exact pyLower_idem k
        · exact nodupKeys_setKey out (pyLower k) w hn
      have h1 : LowKeysD o1 ∧ NodupKeys o1 := by
        cases v with
        | none =>
          cases htab : findVal FILTER_NORMALIZATION_DATA k with
          | none =>
            simp only [normalizeKeyStep, htab] at hstep
            exact hsetCase none (Except.ok.inj hstep).symm
          | some convs =>
            simp only [normalizeKeyStep, htab] at hstep
            exact hsetCase none (Except.ok.inj hstep).symm
        | some s =>
          cases htab : findVal FILTER_NORMALIZATION_DATA k with
          | none =>
            simp only [normalizeKeyStep, htab] at hstep
            exact hsetCase (some s) (Except.ok.inj hstep).symm
          | some convs =>
            simp only [normalizeKeyStep, htab] at hstep
            exact applyConvs_lowNodup s convs out o1 hstep
              (fun q hq => (tableConvs_keys k convs htab q hq).1) hl hn
      exact ih o1 o hok h1.1 h1.2

theorem perKeySteps_astroduo :
    ∀ (m : List (String × Val)) (out o : PyDict String Val),
      perKeySteps out m = Except.ok o →
      (∀ p ∈ m, pyLower p.1 = p.1) → NoAstroDuo out → NoAstroDuo o := by
  intro m
  induction m with
  | nil =>
    intro out o hok _ h
    cases hok
    exact h
  | cons p rest ih =>
    intro out o hok hlow h
    obtain ⟨k, v⟩ := p
    have hk : pyLower k = k := hlow (k, v) (List.mem_cons_self _ rest)
    rw [perKeySteps] at hok
    cases hstep : normalizeKeyStep out k v with
    | error e => rw [hstep] at hok; cases hok
    | ok o1 =>
      rw [hstep] at hok
      have h1 : NoAstroDuo o1 := by
        cases v with
        | none =>
          cases htab : findVal FILTER_NORMALIZATION_DATA k with
          | none =>
            simp only [normalizeKeyStep, htab] at hstep
            rw [← (Except.ok.inj hstep)]
            exact noAstroDuo_setKey_none out (pyLower k) h
          | some convs =>
            simp only [normalizeKeyStep, htab] at hstep
            rw [← (Except.ok.inj hstep)]
            exact noAstroDuo_setKey_none out (pyLower k) h
        | some s =>
          cases htab : findVal FILTER_NORMALIZATION_DATA k with
          | none =>
            simp only [normalizeKeyStep, htab] at hstep
            rw [← (Except.ok.inj hstep)]
            have ha : k ≠ "astro" := by
              intro hh
              subst hh
              have hcon : findVal FILTER_NORMALIZATION_DATA "astro" =
                  some [("filter", fun _ => Except.ok "Astro")] := rfl
              rw [hcon] at htab
              cases htab
            have hd : k ≠ "duo-band" := by
              intro hh
              subst hh
              have hcon : findVal FILTER_NORMALIZATION_DATA "duo-band" =
                  some [("filter", fun _ => Except.ok "Duo-Band")] := rfl
              rw [hcon] at htab
              cases htab
            rw [hk]
            constructor
            all_goals intro s2 hs2
            · rw [findVal_setKey_other out k "astro" (some s)
                (fun hh => ha hh.symm)] at hs2
              exact h.1 s2 hs2
            · rw [findVal_setKey_other out k "duo-band" (some s)
                (fun hh => hd hh.symm)] at hs2
              exact h.2 s2 hs2
          | some convs =>
            simp only [normalizeKeyStep, htab] at hstep
            constructor
            all_goals intro s2 hs2
            · rw [applyConvs_preserve_key s "astro" convs out o1 hstep
                (fun q hq => (tableConvs_keys k convs htab q hq).2.1)] at hs2
              exact h.1 s2 hs2
            · rw [applyConvs_preserve_key s "duo-band" convs out o1 hstep
                (fun q hq => (tableConvs_keys k convs htab q hq).2.2)] at hs2
              exact h.2 s2 hs2
      exact ih o1 o hok (fun q hq => hlow q (List.mem_cons_of_mem _ hq)) h1

theorem perKeySteps_ok_of_low :
    ∀ (m : List (String × Val)) (out : PyDict String Val),
      (∀ p ∈ m, pyLower p.1 = p.1) → ∃ o, perKeySteps out m = Except.ok o := by
  intro m
  induction m with
  | nil => intro out _; exact ⟨out, rfl⟩
  | cons p rest ih =>
    intro out hlow
    obtain ⟨k, v⟩ := p
    have hk : pyLower k = k := hlow (k, v) (List.mem_cons_self _ rest)
    obtain ⟨o1, ho1⟩ : ∃ o1, normalizeKeyStep out k v = Except.ok o1 := by
      cases v with
      | none => exact ⟨setKey out (pyLower k) none, rfl⟩
      | some s =>
        by_cases ha : k = "astro"
        · subst ha
          exact ⟨setKey out "filter" (some "Astro"), rfl⟩
        · by_cases hd : k = "duo-band"
          · subst hd
            exact ⟨setKey out "filter" (some "Duo-Band"), rfl⟩
          · refine ⟨setKey out (pyLower k) (some s), ?_⟩
            unfold normalizeKeyStep
            rw [tableKeys_lower k hk ha hd]
    obtain ⟨o2, ho2⟩ := ih o1 (fun q hq => hlow q (List.mem_cons_of_mem _ hq))
    refine ⟨o2, ?_⟩
    rw [perKeySteps, ho1]
    exact ho2

theorem perKeySteps_passthrough :
    ∀ (B : List (String × Val)) (out : PyDict String Val),
      (∀ p ∈ B, pyLower p.1 = p.1) →
      (∀ p ∈ B, p.2 = none ∨ (p.1 ≠ "astro" ∧ p.1 ≠ "duo-band")) →
      perKeySteps out B = Except.ok (setAll out B) := by
  intro B
  induction B with
  | nil => intro out _ _; rfl
  | cons p rest ih =>
    intro out hlow hv
    obtain ⟨k, v⟩ := p
    have hk : pyLower k = k := hlow (k, v) (List.mem_cons_self _ rest)
    have hstep : normalizeKeyStep out k v = Except.ok (setKey out k v) := by
      cases v with
      | none =>
        show Except.ok (setKey out (pyLower k) none) = _
        rw [hk]
      | some s =>
        rcases hv (k, some s) (List.mem_cons_self _ rest) with h | h
        · cases h
        · unfold normalizeKeyStep
          rw [tableKeys_lower k hk h.1 h.2]
          show Except.ok (setKey out (pyLower k) (some s)) = _
          rw [hk]
    rw [perKeySteps, hstep]
    show perKeySteps (setKey out k v) rest = _
    rw [ih (setKey out k v) (fun q hq => hlow q (List.mem_cons_of_mem _ hq))
      (fun q hq => hv q (List.mem_cons_of_mem _ hq))]
    rfl

theorem condSet_lowNodup (d : PyDict String Val) (key : String) (val : String)
    (hkey : pyLower key = key) (h : LowKeysD d ∧ NodupKeys d) :
    LowKeysD (if hasKey d key then d else setKey d key (some val)) ∧
      NodupKeys (if hasKey d key then d else setKey d key (some val)) := by
  by_cases hk : hasKey d key = true
  · rw [if_pos hk]
    exact h
  · rw [if_neg hk]
    constructor
    · intro k2 hk2
      rcases mem_dictKeys_setKey d key k2 (some val) hk2 with h2 | h2
      · exact h.1 k2 h2
      · rw [h2]
        exact hkey
    · exact nodupKeys_setKey d key (some val) h.2

theorem normalize_lowNodup (m r : PyDict String Val)
    (h : normalize_headers m = Except.ok r) : LowKeysD r ∧ NodupKeys r := by
  unfold normalize_headers at h
  cases hok : perKeySteps [] m with
  | error e => rw [hok] at h; cases h
  | ok o =>
    rw [hok] at h
    have ho := perKeySteps_lowNodup m [] o hok (fun k hk => by cases hk)
      (by simp [NodupKeys, dictKeys])
    have hr : r = injectConstants (splitPanelStep o) := (Except.ok.inj h).symm
    subst hr
    have hs : LowKeysD (splitPanelStep o) ∧ NodupKeys (splitPanelStep o) := by
      rcases splitPanelStep_cases o with ⟨-, he⟩ | ⟨-, -, he⟩ | ⟨-, t, -, -, he⟩
      · rw [he]; exact ho
      · rw [he]; exact ho
      · rw [he]
        constructor
        · intro k hk
          rcases mem_dictKeys_setKey _ "panel" k _ hk with hk2 | hk2
          · rcases mem_dictKeys_setKey _ "targetname" k _ hk2 with hk3 | hk3
            · exact ho.1 k hk3
            · rw [hk3]; decide
          · rw [hk2]; decide
        · exact nodupKeys_setKey _ "panel" _ (nodupKeys_setKey _ "targetname" _ ho.2)
    rw [injectConstants_eq]
    by_cases hc : findVal (splitPanelStep o) "camera" = some (some "DWARFIII")
    · rw [if_pos hc]
      exact condSet_lowNodup _ "type" "LIGHT" (by decide)
        (condSet_lowNodup _ "focal_ratio" "4.3" (by decide) hs)
    · rw [if_neg hc]
      exact hs

theorem normalize_panelCond (m r : PyDict String Val)
    (h : normalize_headers m = Except.ok r) :
    ∀ t, findVal r "targetname" = some (some t) → t.data.isEmpty = false →
      hasKey r "panel" = true := by
  unfold normalize_headers at h
  cases hok : perKeySteps [] m with
  | error e => rw [hok] at h; cases h
  | ok o =>
    rw [hok] at h
    have hr : r = injectConstants (splitPanelStep o) := (Except.ok.inj h).symm
    subst hr
    intro t ht hemp
    have hpt : findVal (splitPanelStep o) "targetname" = some (some t) := by
      rw [← findVal_injectConstants_other (splitPanelStep o) "targetname" (by decide)
        (by decide)]
      exact ht
    apply hasKey_injectConstants_mono
    rcases splitPanelStep_cases o with ⟨hp, he⟩ | ⟨hp, hcond, he⟩ | ⟨hp, t2, ht2, hemp2, he⟩
    · rw [he]
      exact hp
    · rw [he] at hpt
      rw [hcond t hpt] at hemp
      cases hemp
    · rw [he]
      rw [hasKey_setKey]
      simp

theorem normalize_constCond (m r : PyDict String Val)
    (h : normalize_headers m = Except.ok r) :
    findVal r "camera" = some (some "DWARFIII") →
      hasKey r "focal_ratio" = true ∧ hasKey r "type" = true := by
  unfold normalize_headers at h
  cases hok : perKeySteps [] m with
  | error e => rw [hok] at h; cases h
  | ok o =>
    rw [hok] at h
    have hr : r = injectConstants (splitPanelStep o) := (Except.ok.inj h).symm
    subst hr
    intro hc
    have hcp : findVal (splitPanelStep o) "camera" = some (some "DWARFIII") := by
      rw [← findVal_injectConstants_other (splitPanelStep o) "camera" (by decide) (by decide)]
      exact hc
    rw [injectConstants_eq, if_pos hcp]
    constructor
    · show hasKey (if hasKey (if hasKey (splitPanelStep o) "focal_ratio" then _ else _)
        "type" then _ else _) "focal_ratio" = true
      rw [hasKey_condSet, hasKey_condSet]
      simp
    · show hasKey (if hasKey (if hasKey (splitPanelStep o) "focal_ratio" then _ else _)
        "type" then _ else _) "type" = true
      rw [hasKey_condSet]
      simp

theorem normalize_astroduo (m r : PyDict String Val)
    (hlow : ∀ p ∈ m, pyLower p.1 = p.1)
    (h : normalize_headers m = Except.ok r) : NoAstroDuo r := by
  unfold normalize_headers at h
  cases hok : perKeySteps [] m with
  | error e => rw [hok] at h; cases h
  | ok o =>
    rw [hok] at h
    have hr : r = injectConstants (splitPanelStep o) := (Except.ok.inj h).symm
    subst hr
    have hQ : NoAstroDuo o := perKeySteps_astroduo m [] o hok hlow
      ⟨fun s hs => Option.noConfusion hs, fun s hs => Option.noConfusion hs⟩
    have hsp : NoAstroDuo (splitPanelStep o) := by
      rcases splitPanelStep_cases o with ⟨-, he⟩ | ⟨-, -, he⟩ | ⟨-, t, -, -, he⟩
      · rw [he]; exact hQ
      · rw [he]; exact hQ
      · rw [he]
        constructor
        all_goals intro s hs
        · rw [findVal_setKey_other _ "panel" "astro" _ (by decide),
            findVal_setKey_other _ "targetname" "astro" _ (by decide)] at hs
          exact hQ.1 s hs
        · rw [findVal_setKey_other _ "panel" "duo-band" _ (by decide),
            findVal_setKey_other _ "targetname" "duo-band" _ (by decide)] at hs
          exact hQ.2 s hs
    constructor
    all_goals intro s hs
    · rw [findVal_injectConstants_other _ "astro" (by decide) (by decide)] at hs
      exact hsp.1 s hs
    · rw [findVal_injectConstants_other _ "duo-band" (by decide) (by decide)] at hs
      exact hsp.2 s hs

/-- Any mapping satisfying the canonical-output invariants is a literal fixed
point of `normalize_headers`. -/
theorem normalize_fixed (n : PyDict String Val)
    (hlow : LowKeysD n) (hnd : NodupKeys n) (hQ : NoAstroDuo n)
    (hpanel : ∀ t, findVal n "targetname" = some (some t) → t.data.isEmpty = false →
      hasKey n "panel" = true)
    (hconst : findVal n "camera" = some (some "DWARFIII") →
      hasKey n "focal_ratio" = true ∧ hasKey n "type" = true) :
    normalize_headers n = Except.ok n := by
  have hlowElems : ∀ p ∈ n, pyLower p.1 = p.1 :=
    fun p hp => hlow p.1 ((mem_dictKeys_iff n p.1).mpr ⟨p, hp, rfl⟩)
  have hvals : ∀ p ∈ n, p.2 = none ∨ (p.1 ≠ "astro" ∧ p.1 ≠ "duo-band") := by
    intro p hp
    have hfv := findVal_of_mem_nodup n p hnd hp
    by_cases ha : p.1 = "astro"
    · left
      rw [ha] at hfv
      cases hv : p.2 with
      | none => rfl
      | some s =>
        rw [hv] at hfv
        exact absurd hfv (hQ.1 s)
    · by_cases hd : p.1 = "duo-band"
      · left
        rw [hd] at hfv
        cases hv : p.2 with
        | none => rfl
        | some s =>
          rw [hv] at hfv
          exact absurd hfv (hQ.2 s)
      · exact Or.inr ⟨ha, hd⟩
  have hpkn : perKeySteps [] n = Except.ok n := by
    rw [perKeySteps_passthrough n [] hlowElems hvals]
    rw [setAll_rebuild n [] hnd (fun k _ => rfl)]
    rfl
  have hsp : splitPanelStep n = n := by
    rcases splitPanelStep_cases n with ⟨-, he⟩ | ⟨-, -, he⟩ | ⟨hp, t, ht, hemp, -⟩
    · exact he
    · exact he
    · exfalso
      rw [hpanel t ht hemp] at hp
      cases hp
  have hic : injectConstants n = n := by
    rw [injectConstants_eq]
    by_cases hc : findVal n "camera" = some (some "DWARFIII")
    · rw [if_pos hc]
      obtain ⟨hf, ht⟩ := hconst hc
      show (if hasKey (if hasKey n "focal_ratio" then n else _) "type" then _ else _) = n
      rw [if_pos hf, if_pos ht]
    · rw [if_neg hc]
  unfold normalize_headers
  rw [hpkn]
  show Except.ok (injectConstants (splitPanelStep n)) = Except.ok n
  rw [hsp, hic]

/-- C5: Idempotence of normalization. For every mapping m already in canonical
form — i.e. m is the output of normalize_headers on some input — applying
normalize_headers again is stable: normalize_headers m succeeds with some n,
and normalize_headers n = Except.ok n, so
normalize_headers (normalize_headers m) = normalize_headers m. -/
theorem C5_normalize_idempotent (x m : PyDict String Val)
    (hx : normalize_headers x = Except.ok m) :
    ∃ n, normalize_headers m = Except.ok n ∧ normalize_headers n = Except.ok n := by
  obtain ⟨hlowm, hndm⟩ := normalize_lowNodup x m hx
  have hlowElems : ∀ p ∈ m, pyLower p.1 = p.1 :=
    fun p hp => hlowm p.1 ((mem_dictKeys_iff m p.1).mpr ⟨p, hp, rfl⟩)
  obtain ⟨o, ho⟩ := perKeySteps_ok_of_low m [] hlowElems
  have hm : normalize_headers m = Except.ok (injectConstants (splitPanelStep o)) := by
    unfold normalize_headers
    rw [ho]
  refine ⟨injectConstants (splitPanelStep o), hm, ?_⟩
  obtain ⟨hlown, hndn⟩ := normalize_lowNodup m _ hm
  exact normalize_fixed _ hlown hndn (normalize_astroduo m _ hlowElems hm)
    (normalize_panelCond m _ hm) (normalize_constCond m _ hm)

/-- C5 witness: the canonical form of a mapping with an OBJECT key is a fixed
point of a second normalization. -/
theorem C5_normalize_idempotent_witness :
    ∃ n, normalize_headers [("targetname", some "M42"), ("panel", some "")] =
        Except.ok n ∧ normalize_headers n = Except.ok n :=
  C5_normalize_idempotent [("OBJECT", some "M42")]
    [("targetname", some "M42"), ("panel", some "")] (by decide)

/-- C2 counterexample: with file_naming_override and normalization on, a
container header key that is ALREADY canonical (lowercase "filter") collides in
the merged dict with the filename-derived canonical key, and a second raw
container key ("FILTER") is then normalized after it, so the returned filter is
the container-derived "Y", not the filename-derived "H". -/
theorem C2_container_value_can_win :
    get_file_headers "FILTER_H.fits" false true true =
        Except.ok [("filename", some "FILTER_H.fits"), ("filter", some "H")] ∧
    get_fits_headers "FILTER_H.fits" [("filter", some "Z"), ("FILTER", some "Y")]
        false true true =
        Except.ok [("filter", some "Y"), ("filename", some "FILTER_H.fits")] ∧
    findVal [("filter", some "Y"), ("filename", some "FILTER_H.fits")] "filter" ≠
      findVal [("filename", some "FILTER_H.fits"), ("filter", some "H")] "filter" := by
  refine ⟨by decide, by decide, by decide⟩

/-- C2 (amended): with file_naming_override and normalization on, whenever the
raw container header keys are disjoint from the (canonical) filename-derived
keys and the filename-derived mapping has no astro/duo-band key, every
filename-derived attribute survives the merge and the final normalization
unchanged: the returned mapping agrees with the filename-derived mapping on
every filename-derived key. -/
theorem C2_filename_priority (fn : String) (container : List (String × Val))
    (pfp : Bool) (fOut out : PyDict String Val)
    (hfile : get_file_headers fn pfp true true = Except.ok fOut)
    (hdisj : ∀ kv ∈ container, hasKey fOut kv.1 = false)
    (hastro : hasKey fOut "astro" = false)
    (hduo : hasKey fOut "duo-band" = false)
    (hout : get_fits_headers fn container pfp true true = Except.ok out) :
    ∀ k, hasKey fOut k = true → findVal out k = findVal fOut k := by
  have hnf : normalize_headers (applyTokenSpecialCases (rewriteFilename fn pfp true)
      (rawTokens fn pfp true)) = Except.ok fOut := hfile
  obtain ⟨hlowF, hndF⟩ := normalize_lowNodup _ fOut hnf
  have hpanelF := normalize_panelCond _ fOut hnf
  have hout2 : (match get_file_headers fn pfp true true with
      | Except.error e => Except.error e
      | Except.ok fo => normalize_headers (dictOfPairs (container ++ fo))) =
      Except.ok out := hout
  rw [hfile] at hout2
  have hout3 : normalize_headers (dictOfPairs (container ++ fOut)) = Except.ok out :=
    hout2
  have hmerge : dictOfPairs (container ++ fOut) = dictOfPairs container ++ fOut := by
    show setAll [] (container ++ fOut) = setAll ([] : PyDict String Val) container ++ fOut
    rw [setAll_append]
    apply setAll_rebuild fOut (setAll [] container) hndF
    intro k hk
    cases hC : hasKey (setAll ([] : PyDict String Val) container) k with
    | false => rfl
    | true =>
      exfalso
      rcases hasKey_setAll_sub container [] k hC with h | h
      · exact Bool.noConfusion h
      · obtain ⟨kv, hkv, hkeq⟩ := (mem_dictKeys_iff container k).mp h
        have hd := hdisj kv hkv
        rw [hkeq] at hd
        rw [← hasKey_iff_mem_keys] at hk
        rw [hk] at hd
        exact Bool.noConfusion hd
  rw [hmerge] at hout3
  unfold normalize_headers at hout3
  cases hpk : perKeySteps [] (dictOfPairs container ++ fOut) with
  | error e =>
    rw [hpk] at hout3
    exact Except.noConfusion hout3
  | ok o =>
    rw [hpk] at hout3
    have hoeq : out = injectConstants (splitPanelStep o) := (Except.ok.inj hout3).symm
    rw [perKeySteps_append (dictOfPairs container) fOut []] at hpk
    cases hpkC : perKeySteps [] (dictOfPairs container) with
    | error e =>
      rw [hpkC] at hpk
      exact Except.noConfusion hpk
    | ok oC =>
      rw [hpkC] at hpk
      have hpkF : perKeySteps oC fOut = Except.ok o := hpk
      have hlowElemsF : ∀ p ∈ fOut, pyLower p.1 = p.1 :=
        fun p hp => hlowF p.1 ((mem_dictKeys_iff fOut p.1).mpr ⟨p, hp, rfl⟩)
      have hvalsF : ∀ p ∈ fOut, p.2 = none ∨ (p.1 ≠ "astro" ∧ p.1 ≠ "duo-band") := by
        intro p hp
        right
        constructor
        · intro ha
          have hm : hasKey fOut "astro" = true := (hasKey_iff_mem_keys fOut "astro").mpr
            ((mem_dictKeys_iff fOut "astro").mpr ⟨p, hp, ha⟩)
          rw [hastro] at hm
          exact Bool.noConfusion hm
        · intro hd
          have hm : hasKey fOut "duo-band" = true := (hasKey_iff_mem_keys fOut "duo-band").mpr
            ((mem_dictKeys_iff fOut "duo-band").mpr ⟨p, hp, hd⟩)
          rw [hduo] at hm
          exact Bool.noConfusion hm
      have ho2 : o = setAll oC fOut := by
        rw [perKeySteps_passthrough fOut oC hlowElemsF hvalsF] at hpkF
        exact (Except.ok.inj hpkF).symm
      intro k hkF
      have hkmem : k ∈ dictKeys fOut := (hasKey_iff_mem_keys fOut k).mp hkF
      have hfk : findVal o k = findVal fOut k := by
        rw [ho2]
        exact findVal_setAll_mem fOut oC k hndF hkmem
      have hsomef : (findVal fOut k).isSome = true := by
        rw [findVal_isSome_iff_hasKey]
        exact hkF
      obtain ⟨v, hv⟩ := Option.isSome_iff_exists.mp hsomef
      have hsp : findVal (splitPanelStep o) k = some v := by
        rcases splitPanelStep_cases o with ⟨-, he⟩ | ⟨-, -, he⟩ | ⟨hpA, t, ht, hemp, he⟩
        · rw [he, hfk, hv]
        · rw [he, hfk, hv]
        · by_cases hkt : k = "targetname"
          · exfalso
            subst hkt
            rw [hfk] at ht
            have hpF : hasKey fOut "panel" = true := hpanelF t ht hemp
            have hpo : hasKey o "panel" = true := by
              rw [ho2]
              exact hasKey_setAll_of_mem fOut oC "panel"
                ((hasKey_iff_mem_keys fOut "panel").mp hpF)
            rw [hpA] at hpo
            exact Bool.noConfusion hpo
          · by_cases hkp : k = "panel"
            · exfalso
              subst hkp
              have hpo : hasKey o "panel" = true := by
                rw [ho2]
                exact hasKey_setAll_of_mem fOut oC "panel" hkmem
              rw [hpA] at hpo
              exact Bool.noConfusion hpo
            · rw [he, findVal_setKey_other _ "panel" k _ hkp,
                findVal_setKey_other _ "targetname" k _ hkt, hfk, hv]
      rw [hoeq, findVal_injectConstants_preserve (splitPanelStep o) k v hsp, hv]

/-- C2 witness: for EXP_10.fits with a container EXPOSURE header of 99, the
filename-derived exposureseconds value 10.00 survives into the final mapping. -/
theorem C2_filename_priority_witness :
    get_fits_headers "EXP_10.fits" [("EXPOSURE", some "99")] false true true =
        Except.ok [("exposureseconds", some "10.00"), ("filename", some "EXP_10.fits")] ∧
    findVal [("exposureseconds", some "10.00"), ("filename", some "EXP_10.fits")]
        "exposureseconds" =
      findVal [("filename", some "EXP_10.fits"), ("exposureseconds", some "10.00")]
        "exposureseconds" :=
  ⟨by decide,
   C2_filename_priority "EXP_10.fits" [("EXPOSURE", some "99")] false
     [("filename", some "EXP_10.fits"), ("exposureseconds", some "10.00")]
     [("exposureseconds", some "10.00"), ("filename", some "EXP_10.fits")]
     (by decide) (by decide) (by decide) (by decide) (by decide)
     "exposureseconds" (by decide)⟩
